import Mathlib

/-!
# A shallow embedding of `expire_map.h`

This file models the expiring key/value map of `src/expire_map.h`:

* `lookup_map_`   (the entry table)     as an association list `List (K × MapData V)`;
* `append_timeouts_` (the pending log)  as a `List (TimeoutData K)`;
* `sorted_timeouts_` (the deadline index, a `std::map<uint64_t, unordered_set<K>>`)
  as an association list `List (Nat × List K)` kept in ascending deadline order.

Machine `uint64_t` arithmetic is modelled over `Nat` with an explicit
`% 2 ^ 64` where the source can overflow (the deadline computation in `put`).
`assert` failures (live in debug builds) are modelled by returning `none`:
an operation that can abort returns an `Option`.

Time is passed in explicitly: each C++ call to `get_time_ms()` becomes a
`now : Nat` parameter of the corresponding Lean function.
-/

set_option linter.unusedSectionVars false

/-- `2 ^ 64`, the modulus of `uint64_t` arithmetic. -/
def U64 : Nat := 2 ^ 64

/-- Value type of `lookup_map_` (`struct map_data`): the value and the
absolute deadline stored for a key. -/
structure MapData (V : Type) where
  value : V
  timeout : Nat
deriving DecidableEq

/-- A pending-log record (`struct timeout_data`): the key, the recorded
deadline and the `overwrite_` flag (`true` marks a removal record). -/
structure TimeoutData (K : Type) where
  key : K
  timeout : Nat
  overwrite : Bool
deriving DecidableEq

/-- The whole shared state of an `expire_map` instance (the fields guarded by
`lock_`): pending log, deadline index, entry table and shutdown flag. -/
structure ExpireMap (K V : Type) where
  appendTimeouts : List (TimeoutData K)
  sortedTimeouts : List (Nat × List K)
  lookupMap : List (K × MapData V)
  shutdown : Bool
deriving DecidableEq

/-- `find` on an association list (models `std::map::find` /
`std::unordered_map::find`). -/
def assocFind {κ α : Type} [DecidableEq κ] : List (κ × α) → κ → Option α
  | [], _ => none
  | (k1, a) :: rest, k => if k1 = k then some a else assocFind rest k

/-- `erase(key)` on an association list: removes the (unique) entry for the
key, if present. -/
def assocErase {κ α : Type} [DecidableEq κ] : List (κ × α) → κ → List (κ × α)
  | [], _ => []
  | (k1, a) :: rest, k => if k1 = k then rest else (k1, a) :: assocErase rest k

/-- In-place replacement of the mapped value at a key (models mutating
`it->second` through a found iterator). -/
def assocSet {κ α : Type} [DecidableEq κ] : List (κ × α) → κ → α → List (κ × α)
  | [], _, _ => []
  | (k1, a) :: rest, k, b => if k1 = k then (k, b) :: rest else (k1, a) :: assocSet rest k b

/-- `insert` on an association-list map: inserts only when the key is absent
(`std::unordered_map::insert` semantics). -/
def assocInsert {κ α : Type} [DecidableEq κ] (m : List (κ × α)) (k : κ) (a : α) :
    List (κ × α) :=
  if (assocFind m k).isSome then m else (k, a) :: m

/-- `unordered_set::insert`: returns the new set and whether the element was
actually inserted (`ret.second`). -/
def setInsert {κ : Type} [DecidableEq κ] (s : List κ) (k : κ) : List κ × Bool :=
  if k ∈ s then (s, false) else (k :: s, true)

/-- `unordered_set::erase(key)`. -/
def setErase {κ : Type} [DecidableEq κ] : List κ → κ → List κ
  | [], _ => []
  | x :: rest, k => if x = k then setErase rest k else x :: setErase rest k

/-- Insertion of a fresh deadline bucket into the ordered index
(`std::map::insert`, called only when the deadline is not yet present). -/
def smInsertNew {K : Type} : List (Nat × List K) → Nat → List K → List (Nat × List K)
  | [], d, s => [(d, s)]
  | (d1, s1) :: rest, d, s =>
      if d < d1 then (d, s) :: (d1, s1) :: rest
      else (d1, s1) :: smInsertNew rest d s

/-- One iteration of the lambda inside `populate_sorted_timeouts`, applied to
one pending record.  `none` models a fired `assert`:
* a removal record whose deadline bucket exists but does not contain the key
  (`assert(it2 != it->second.end())`);
* an insertion record whose key is already in the bucket (`assert(ret.second)`).

Note the faithful final branch: when no bucket exists for the record's
deadline, the source inserts a fresh bucket holding the key *regardless of the
`overwrite_` flag*. -/
def applyRecord {K : Type} [DecidableEq K] (idx : List (Nat × List K))
    (data : TimeoutData K) : Option (List (Nat × List K)) :=
  match assocFind idx data.timeout with
  | some bucket =>
      if data.overwrite then
        if data.key ∈ bucket then
          let b2 := setErase bucket data.key
          if b2.isEmpty then some (assocErase idx data.timeout)
          else some (assocSet idx data.timeout b2)
        else none
      else
        let r := setInsert bucket data.key
        if r.2 then some (assocSet idx data.timeout r.1) else none
  | none => some (smInsertNew idx data.timeout [data.key])

/-- The `for_each` of `populate_sorted_timeouts`: folds the pending records,
in append order, into the deadline index; `none` if any assert fires. -/
def runLog {K : Type} [DecidableEq K] (idx : List (Nat × List K)) :
    List (TimeoutData K) → Option (List (Nat × List K))
  | [] => some idx
  | r :: rest =>
      match applyRecord idx r with
      | none => none
      | some idx1 => runLog idx1 rest

namespace ExpireMap

variable {K V : Type} [DecidableEq K]

/-- The freshly constructed map: all containers empty, shutdown unset. -/
def initial : ExpireMap K V := ⟨[], [], [], false⟩

/-- `expire_map::get`: look up the key; report absent when missing or when the
stored deadline is `≤ now` (lazy expiry).  The source only reads under the
lock, so the embedding is a pure function of the state. -/
def get (s : ExpireMap K V) (k : K) (now : Nat) : Option V :=
  match assocFind s.lookupMap k with
  | none => none
  | some md => if md.timeout ≤ now then none else some md.value

/-- `expire_map::remove_internal`: if the key is present, append a removal
record carrying the entry's current deadline, then erase the entry. -/
def removeInternal (s : ExpireMap K V) (k : K) : ExpireMap K V :=
  match assocFind s.lookupMap k with
  | none => s
  | some md =>
      { s with
        appendTimeouts := s.appendTimeouts ++ [⟨k, md.timeout, true⟩],
        lookupMap := assocErase s.lookupMap k }

/-- `expire_map::put`: compute the deadline `(now + ms) % 2 ^ 64` (the uint64
addition wraps), remove any existing entry for the key, append an insertion
record, and insert into the entry table.  The condition-variable notification
at the end of the source function does not change the state and is omitted. -/
def put (s : ExpireMap K V) (k : K) (v : V) (ms now : Nat) : ExpireMap K V :=
  let epochMs := (now + ms) % U64
  let s1 := if (assocFind s.lookupMap k).isSome then removeInternal s k else s
  let s2 := { s1 with appendTimeouts := s1.appendTimeouts ++ [TimeoutData.mk k epochMs false] }
  { s2 with lookupMap := assocInsert s2.lookupMap k (MapData.mk v epochMs) }

/-- `expire_map::remove`: takes the lock and calls `remove_internal`. -/
def remove (s : ExpireMap K V) (k : K) : ExpireMap K V := removeInternal s k

/-- `expire_map::size`. -/
def size (s : ExpireMap K V) : Nat := s.lookupMap.length

/-- `MAX_RECLAIM_ENTRIES`: bound on buckets reclaimed in one round. -/
def MAX_RECLAIM_ENTRIES : Nat := 10

/-- `expire_map::min_timeout`: deadline of the first (least) bucket.  The
source asserts nonemptiness; callers only use it on a nonempty index. -/
def minTimeout {K : Type} (idx : List (Nat × List K)) : Nat :=
  match idx with
  | [] => 0
  | p :: _ => p.1

/-- The inner `for_each` of the reclaim loop: erase every key of a due bucket
from the entry table; `assert(result == 1)` (the key must be present) is
modelled by `none`. -/
def eraseAllKeys : List K → List (K × MapData V) → Option (List (K × MapData V))
  | [], m => some m
  | k :: ks, m =>
      if (assocFind m k).isSome then eraseAllKeys ks (assocErase m k) else none

/-- The eviction `while` loop of `expire_map::reclaim`: processes buckets in
ascending deadline order, erasing each due bucket (deadline `≤ curr`) and its
keys, stopping at the first future bucket or after `MAX_RECLAIM_ENTRIES`
buckets. -/
def evictLoop : List (Nat × List K) → List (K × MapData V) → Nat → Nat →
    Option (List (Nat × List K) × List (K × MapData V))
  | [], m, _, _ => some ([], m)
  | (d, b) :: rest, m, curr, c =>
      if c < MAX_RECLAIM_ENTRIES then
        if d ≤ curr then
          match eraseAllKeys b m with
          | none => none
          | some m1 => evictLoop rest m1 curr (c + 1)
        else some ((d, b) :: rest, m)
      else some ((d, b) :: rest, m)

/-- `expire_map::populate_sorted_timeouts`: merge the pending log into the
deadline index in append order, then clear the log; `none` if an assert
fires. -/
def populateSortedTimeouts (s : ExpireMap K V) : Option (ExpireMap K V) :=
  match runLog s.sortedTimeouts s.appendTimeouts with
  | none => none
  | some idx => some { s with sortedTimeouts := idx, appendTimeouts := [] }

/-- One full state-changing pass of the reclaimer at time `now`: merge the
pending log, then run the eviction loop.  When the index is empty or its
minimum deadline is in the future the source waits instead of evicting; in
both of those cases `evictLoop` leaves the state unchanged, so this function
covers every iteration of the reclaim loop as a state transformer. -/
def reclaimRound (s : ExpireMap K V) (now : Nat) : Option (ExpireMap K V) :=
  match populateSortedTimeouts s with
  | none => none
  | some s1 =>
      match evictLoop s1.sortedTimeouts s1.lookupMap now 0 with
      | none => none
      | some (idx, m) => some { s1 with sortedTimeouts := idx, lookupMap := m }

/-- `expire_map::cleanup`: set the shutdown flag (and notify the condition
variable, which does not change the modelled state). -/
def cleanup (s : ExpireMap K V) : ExpireMap K V := { s with shutdown := true }

end ExpireMap

/-- Outcome of one iteration of the reclaimer's `while (1)` body. -/
inductive ReclaimOut (K V : Type) where
  | stopped
  | sleeping (s : ExpireMap K V)
  | next (s : ExpireMap K V) (now : Nat)
  | fail
deriving DecidableEq

/-- One iteration of the reclaimer loop, as in `expire_map::reclaim`:
merge; if the index is empty, stop when shutting down, otherwise block on the
condition variable (`sleeping`); if the least deadline is in the future, a
timed wait elapses and time advances to that deadline (the un-notified
worst case); otherwise run the eviction loop and continue at the same time.
An assert firing anywhere is `fail`. -/
def reclaimStep {K V : Type} [DecidableEq K] (s : ExpireMap K V) (now : Nat) :
    ReclaimOut K V :=
  match ExpireMap.populateSortedTimeouts s with
  | none => .fail
  | some s1 =>
      match s1.sortedTimeouts with
      | [] => if s1.shutdown then .stopped else .sleeping s1
      | (d, b) :: rest =>
          if now < d then .next s1 d
          else
            match ExpireMap.evictLoop ((d, b) :: rest) s1.lookupMap now 0 with
            | none => .fail
            | some (idx, m) =>
                .next { s1 with sortedTimeouts := idx, lookupMap := m } now

/-- Run up to `n + 1` iterations of the reclaimer loop, chaining `next`
outcomes. -/
def iterSteps {K V : Type} [DecidableEq K] : Nat → ExpireMap K V → Nat → ReclaimOut K V
  | 0, s, now => reclaimStep s now
  | n + 1, s, now =>
      match reclaimStep s now with
      | .next s1 now1 => iterSteps n s1 now1
      | o => o

/-- The states reachable through the public interface together with the
reclaimer: the fresh map, then any interleaving of `put`, `remove`,
successful reclaim rounds and `cleanup`. -/
inductive Reachable {K V : Type} [DecidableEq K] : ExpireMap K V → Prop where
  | init : Reachable ExpireMap.initial
  | put (s : ExpireMap K V) (k : K) (v : V) (ms now : Nat) :
      Reachable s → Reachable (s.put k v ms now)
  | remove (s : ExpireMap K V) (k : K) :
      Reachable s → Reachable (s.remove k)
  | reclaim (s s1 : ExpireMap K V) (now : Nat) :
      Reachable s → ExpireMap.reclaimRound s now = some s1 → Reachable s1
  | cleanup (s : ExpireMap K V) :
      Reachable s → Reachable s.cleanup

section Invariant

variable {K V : Type} [DecidableEq K]

/-- The deadlines of the index, in order. -/
def idxKeys {K : Type} (idx : List (Nat × List K)) : List Nat := idx.map Prod.fst

/-- The index is strictly ascending in deadline (the `std::map` ordering). -/
def sortedIdx {K : Type} (idx : List (Nat × List K)) : Prop :=
  (idxKeys idx).Pairwise (· < ·)

/-- Every bucket of the index is a nonempty finite set: no empty buckets and
no duplicate keys within a bucket. -/
def bucketsOK {K : Type} (idx : List (Nat × List K)) : Prop :=
  ∀ p ∈ idx, p.2 ≠ [] ∧ p.2.Nodup

/-- Structural well-formedness of the deadline index. -/
def WFidx {K : Type} (idx : List (Nat × List K)) : Prop :=
  sortedIdx idx ∧ bucketsOK idx

/-- Key `k` appears in the bucket for deadline `d`. -/
def idxMem {K : Type} (idx : List (Nat × List K)) (d : Nat) (k : K) : Prop :=
  ∃ b, (d, b) ∈ idx ∧ k ∈ b

/-- The index carries exactly the key-to-deadline relation `f`. -/
def Matches (idx : List (Nat × List K)) (f : K → Option Nat) : Prop :=
  ∀ d k, idxMem idx d k ↔ f k = some d

/-- The key-to-deadline map induced by the entry table. -/
def kdm (m : List (K × MapData V)) : K → Option Nat :=
  fun k => (assocFind m k).map MapData.timeout

/-- The entry table has no duplicate keys (an `unordered_map`). -/
def lookupNodup (m : List (K × MapData V)) : Prop :=
  (m.map Prod.fst).Nodup

/-- Pointwise update of a key-to-deadline map. -/
def updF (f : K → Option Nat) (k : K) (d : Option Nat) : K → Option Nat :=
  fun x => if x = k then d else f x

/-- The central invariant: the entry table has unique keys, and merging the
pending log into the deadline index succeeds and yields a well-formed index
carrying exactly the entry table's key-to-deadline relation. -/
def MergedInv (s : ExpireMap K V) : Prop :=
  lookupNodup s.lookupMap ∧
    ∃ idx, runLog s.sortedTimeouts s.appendTimeouts = some idx ∧
      WFidx idx ∧ Matches idx (kdm s.lookupMap)

end Invariant

/-! ## Association-list lemmas -/

section AssocLemmas

variable {κ α : Type} [DecidableEq κ]

lemma assocFind_eq_none {m : List (κ × α)} {k : κ} :
    assocFind m k = none ↔ k ∉ m.map Prod.fst := by
  induction m with
  | nil => simp [assocFind]
  | cons p rest ih =>
      obtain ⟨k1, a⟩ := p
      by_cases h : k1 = k <;> simp [assocFind, h, ih, Ne.symm]

lemma assocFind_mem {m : List (κ × α)} {k : κ} {a : α}
    (h : assocFind m k = some a) : (k, a) ∈ m := by
  induction m with
  | nil => simp [assocFind] at h
  | cons p rest ih =>
      obtain ⟨k1, b⟩ := p
      by_cases hk : k1 = k
      · subst hk
        simp [assocFind] at h
        simp [h]
      · simp [assocFind, hk] at h
        simp [ih h]

lemma mem_assocFind {m : List (κ × α)} {k : κ} {a : α}
    (hnd : (m.map Prod.fst).Nodup) (h : (k, a) ∈ m) : assocFind m k = some a := by
  induction m with
  | nil => simp at h
  | cons p rest ih =>
      obtain ⟨k1, b⟩ := p
      simp only [List.map_cons, List.nodup_cons] at hnd
      rcases List.mem_cons.mp h with h1 | h1
      · rw [Prod.ext_iff] at h1
        obtain ⟨h1a, h1b⟩ := h1
        simp at h1a h1b
        subst h1a h1b
        simp [assocFind]
      · have hk1 : k1 ≠ k := by
          rintro rfl
          exact hnd.1 (List.mem_map.mpr ⟨(k1, a), h1, rfl⟩)
        simp [assocFind, hk1, ih hnd.2 h1]

lemma assocFind_isSome {m : List (κ × α)} {k : κ} :
    (assocFind m k).isSome = true ↔ k ∈ m.map Prod.fst := by
  cases h : assocFind m k with
  | none => simp [assocFind_eq_none.mp h]
  | some a =>
      simp only [Option.isSome_some, true_iff]
      exact List.mem_map.mpr ⟨(k, a), assocFind_mem h, rfl⟩

lemma assocErase_sublist (m : List (κ × α)) (k : κ) :
    (assocErase m k).Sublist m := by
  induction m with
  | nil => simp [assocErase]
  | cons p rest ih =>
      obtain ⟨k1, a⟩ := p
      by_cases h : k1 = k
      · simp [assocErase, h]
      · simpa [assocErase, h] using ih.cons₂ (k1, a)

lemma assocErase_keys_nodup {m : List (κ × α)} {k : κ}
    (hnd : (m.map Prod.fst).Nodup) : ((assocErase m k).map Prod.fst).Nodup :=
  hnd.sublist ((assocErase_sublist m k).map Prod.fst)

lemma assocFind_assocErase_self {m : List (κ × α)} {k : κ}
    (hnd : (m.map Prod.fst).Nodup) : assocFind (assocErase m k) k = none := by
  induction m with
  | nil => simp [assocErase, assocFind]
  | cons p rest ih =>
      obtain ⟨k1, a⟩ := p
      simp only [List.map_cons, List.nodup_cons] at hnd
      by_cases h : k1 = k
      · subst h
        simp only [assocErase, if_pos rfl]
        rw [assocFind_eq_none]
        exact hnd.1
      · simp [assocErase, h, assocFind, ih hnd.2]

lemma assocFind_assocErase_ne {m : List (κ × α)} {k k2 : κ} (hne : k2 ≠ k) :
    assocFind (assocErase m k) k2 = assocFind m k2 := by
  induction m with
  | nil => simp [assocErase]
  | cons p rest ih =>
      obtain ⟨k1, a⟩ := p
      by_cases h : k1 = k
      · subst h
        simp [assocErase, assocFind, Ne.symm hne]
      · by_cases h2 : k1 = k2 <;> simp [assocErase, assocFind, h, h2, hne, ih]

lemma mem_assocErase_of_mem {m : List (κ × α)} {k : κ} {p : κ × α}
    (h : p ∈ assocErase m k) : p ∈ m :=
  (assocErase_sublist m k).mem h

lemma mem_assocErase_iff {m : List (κ × α)} {k k2 : κ} {a : α}
    (hnd : (m.map Prod.fst).Nodup) :
    (k2, a) ∈ assocErase m k ↔ (k2, a) ∈ m ∧ k2 ≠ k := by
  constructor
  · intro h
    refine ⟨mem_assocErase_of_mem h, ?_⟩
    rintro rfl
    have := mem_assocFind (assocErase_keys_nodup hnd) h
    rw [assocFind_assocErase_self hnd] at this
    exact Option.noConfusion this
  · rintro ⟨hmem, hne⟩
    have := mem_assocFind hnd hmem
    rw [← assocFind_assocErase_ne hne] at this
    exact assocFind_mem this

lemma assocSet_keys (m : List (κ × α)) (k : κ) (b : α) :
    (assocSet m k b).map Prod.fst = m.map Prod.fst := by
  induction m with
  | nil => simp [assocSet]
  | cons p rest ih =>
      obtain ⟨k1, a⟩ := p
      by_cases h : k1 = k <;> simp [assocSet, h, ih]

lemma mem_assocSet_iff {m : List (κ × α)} {k k2 : κ} {b c : α}
    (hnd : (m.map Prod.fst).Nodup) (hfind : (assocFind m k).isSome = true) :
    (k2, c) ∈ assocSet m k b ↔ (k2 = k ∧ c = b) ∨ ((k2, c) ∈ m ∧ k2 ≠ k) := by
  induction m with
  | nil => simp [assocFind] at hfind
  | cons p rest ih =>
      obtain ⟨k1, a⟩ := p
      simp only [List.map_cons, List.nodup_cons] at hnd
      by_cases h : k1 = k
      · subst h
        simp only [assocSet, if_pos rfl]
        constructor
        · intro hm
          rcases List.mem_cons.mp hm with h1 | h1
          · rw [Prod.ext_iff] at h1
            exact Or.inl ⟨h1.1, h1.2⟩
          · right
            refine ⟨List.mem_cons_of_mem _ h1, ?_⟩
            rintro rfl
            exact hnd.1 (List.mem_map.mpr ⟨(k2, c), h1, rfl⟩)
        · rintro (⟨rfl, rfl⟩ | ⟨h1, hne⟩)
          · exact List.mem_cons_self _ _
          · rcases List.mem_cons.mp h1 with h2 | h2
            · rw [Prod.ext_iff] at h2
              exact absurd h2.1 hne
            · exact List.mem_cons_of_mem _ h2
      · have hfind2 : (assocFind rest k).isSome = true := by
          simpa [assocFind, h] using hfind
        simp only [assocSet, if_neg h]
        constructor
        · intro hm
          rcases List.mem_cons.mp hm with h1 | h1
          · rw [Prod.ext_iff] at h1
            obtain ⟨h1a, h1b⟩ := h1
            simp at h1a h1b
            subst h1a h1b
            exact Or.inr ⟨List.mem_cons_self _ _, h⟩
          · rcases (ih hnd.2 hfind2).mp h1 with h2 | ⟨h2, h3⟩
            · exact Or.inl h2
            · exact Or.inr ⟨List.mem_cons_of_mem _ h2, h3⟩
        · rintro (⟨rfl, rfl⟩ | ⟨h1, hne⟩)
          · exact List.mem_cons_of_mem _ ((ih hnd.2 hfind2).mpr (Or.inl ⟨rfl, rfl⟩))
          · rcases List.mem_cons.mp h1 with h2 | h2
            · rw [h2]
              exact List.mem_cons_self _ _
            · exact List.mem_cons_of_mem _ ((ih hnd.2 hfind2).mpr (Or.inr ⟨h2, hne⟩))

end AssocLemmas

/-! ## Bucket-set and ordered-index lemmas -/

section SetLemmas

variable {κ : Type} [DecidableEq κ]

lemma mem_setErase_iff {b : List κ} {k x : κ} :
    x ∈ setErase b k ↔ x ∈ b ∧ x ≠ k := by
  induction b with
  | nil => simp [setErase]
  | cons y rest ih =>
      by_cases h : y = k
      · subst h
        simp only [setErase, if_pos rfl, ih, List.mem_cons]
        tauto
      · simp only [setErase, if_neg h, List.mem_cons, ih]
        constructor
        · rintro (rfl | ⟨h1, h2⟩)
          · exact ⟨Or.inl rfl, h⟩
          · exact ⟨Or.inr h1, h2⟩
        · rintro ⟨rfl | h1, h2⟩
          · exact Or.inl rfl
          · exact Or.inr ⟨h1, h2⟩

lemma setErase_nodup {b : List κ} {k : κ} (h : b.Nodup) : (setErase b k).Nodup := by
  induction b with
  | nil => simp [setErase]
  | cons y rest ih =>
      simp only [List.nodup_cons] at h
      by_cases hy : y = k
      · simp only [setErase, if_pos hy]
        exact ih h.2
      · simp only [setErase, if_neg hy, List.nodup_cons]
        exact ⟨fun hmem => h.1 (mem_setErase_iff.mp hmem).1, ih h.2⟩

lemma setErase_isEmpty_iff {b : List κ} {k : κ} (hnd : b.Nodup) (hk : k ∈ b) :
    (setErase b k).isEmpty = true ↔ b = [k] := by
  constructor
  · intro h
    have hsub : ∀ x ∈ b, x = k := by
      intro x hx
      by_contra hne
      have : x ∈ setErase b k := mem_setErase_iff.mpr ⟨hx, hne⟩
      rw [List.isEmpty_iff] at h
      simp [h] at this
    cases b with
    | nil => simp at hk
    | cons y rest =>
        have hy := hsub y (List.mem_cons_self _ _)
        subst hy
        cases rest with
        | nil => rfl
        | cons z rest2 =>
            have hz := hsub z (List.mem_cons_of_mem _ (List.mem_cons_self _ _))
            subst hz
            simp at hnd
  · rintro rfl
    simp [setErase]

end SetLemmas

section IdxLemmas

variable {K : Type} [DecidableEq K]

lemma sortedIdx_keys_nodup {idx : List (Nat × List K)} (h : sortedIdx idx) :
    (idxKeys idx).Nodup :=
  h.imp Nat.ne_of_lt

lemma mem_smInsertNew_iff {idx : List (Nat × List K)} {d : Nat} {s : List K}
    {p : Nat × List K} :
    p ∈ smInsertNew idx d s ↔ p = (d, s) ∨ p ∈ idx := by
  induction idx with
  | nil => simp [smInsertNew]
  | cons q rest ih =>
      obtain ⟨d1, s1⟩ := q
      by_cases h : d < d1
      · simp [smInsertNew, h]
      · simp only [smInsertNew, if_neg h, List.mem_cons, ih]
        tauto

lemma smInsertNew_keys {idx : List (Nat × List K)} {d : Nat} {s : List K} {x : Nat} :
    x ∈ idxKeys (smInsertNew idx d s) ↔ x = d ∨ x ∈ idxKeys idx := by
  simp only [idxKeys, List.mem_map]
  constructor
  · rintro ⟨p, hp, rfl⟩
    rcases mem_smInsertNew_iff.mp hp with rfl | hp2
    · exact Or.inl rfl
    · exact Or.inr ⟨p, hp2, rfl⟩
  · rintro (rfl | ⟨p, hp, rfl⟩)
    · exact ⟨(x, s), mem_smInsertNew_iff.mpr (Or.inl rfl), rfl⟩
    · exact ⟨p, mem_smInsertNew_iff.mpr (Or.inr hp), rfl⟩

lemma smInsertNew_sorted {idx : List (Nat × List K)} {d : Nat} {s : List K}
    (hs : sortedIdx idx) (hd : d ∉ idxKeys idx) :
    sortedIdx (smInsertNew idx d s) := by
  induction idx with
  | nil => simp [smInsertNew, sortedIdx, idxKeys]
  | cons q rest ih =>
      obtain ⟨d1, s1⟩ := q
      simp only [sortedIdx, idxKeys, List.map_cons, List.pairwise_cons] at hs
      simp only [idxKeys, List.map_cons, List.mem_cons] at hd
      push_neg at hd
      by_cases h : d < d1
      · simp only [smInsertNew, if_pos h, sortedIdx, idxKeys, List.map_cons,
          List.pairwise_cons]
        refine ⟨?_, hs.1, hs.2⟩
        intro x hx
        rcases List.mem_cons.mp hx with rfl | hx2
        · exact h
        · exact h.trans (hs.1 x hx2)
      · have hlt : d1 < d := by
          rcases Nat.lt_or_ge d d1 with h1 | h1
          · exact absurd h1 h
          · exact Nat.lt_of_le_of_ne h1 (Ne.symm hd.1)
        simp only [smInsertNew, if_neg h, sortedIdx, idxKeys, List.map_cons,
          List.pairwise_cons]
        constructor
        · intro x hx
          rcases smInsertNew_keys.mp hx with rfl | hx2
          · exact hlt
          · exact hs.1 x hx2
        · exact ih hs.2 hd.2

lemma sortedIdx_assocSet {idx : List (Nat × List K)} {d : Nat} {b : List K}
    (hs : sortedIdx idx) : sortedIdx (assocSet idx d b) := by
  unfold sortedIdx
  rw [show idxKeys (assocSet idx d b) = idxKeys idx from assocSet_keys idx d b]
  exact hs

lemma sortedIdx_assocErase {idx : List (Nat × List K)} {d : Nat}
    (hs : sortedIdx idx) : sortedIdx (assocErase idx d) :=
  hs.sublist ((assocErase_sublist idx d).map Prod.fst)

end IdxLemmas

/-! ## Properties of a single merged record (`applyRecord`) -/

section ApplyRecordLemmas

variable {K V : Type} [DecidableEq K]

lemma matches_fun {idx : List (Nat × List K)} {f : K → Option Nat}
    (hM : Matches idx f) {d d2 : Nat} {k : K}
    (h1 : idxMem idx d k) (h2 : idxMem idx d2 k) : d = d2 := by
  have e1 := (hM d k).mp h1
  have e2 := (hM d2 k).mp h2
  rw [e1] at e2
  exact Option.some.inj e2

lemma idx_bucket_unique {idx : List (Nat × List K)}
    (hnd : (idx.map Prod.fst).Nodup) {d : Nat} {b b0 : List K}
    (h1 : (d, b) ∈ idx) (h2 : (d, b0) ∈ idx) : b = b0 := by
  have e1 := mem_assocFind hnd h1
  have e2 := mem_assocFind hnd h2
  rw [e1] at e2
  exact Option.some.inj e2

lemma matches_find_bucket {idx : List (Nat × List K)} {f : K → Option Nat}
    (hWF : WFidx idx) (hM : Matches idx f) {k : K} {d : Nat}
    (hk : f k = some d) : ∃ b, assocFind idx d = some b ∧ k ∈ b := by
  obtain ⟨b, hmem, hkb⟩ := (hM d k).mpr hk
  exact ⟨b, mem_assocFind (sortedIdx_keys_nodup hWF.1) hmem, hkb⟩

lemma applyRecord_insert {idx : List (Nat × List K)} {f : K → Option Nat}
    {k : K} {d : Nat} (hWF : WFidx idx) (hM : Matches idx f) (hk : f k = none) :
    ∃ idx2, applyRecord idx ⟨k, d, false⟩ = some idx2 ∧ WFidx idx2 ∧
      Matches idx2 (updF f k (some d)) := by
  have hkeysnd : (idx.map Prod.fst).Nodup := sortedIdx_keys_nodup hWF.1
  cases hfind : assocFind idx d with
  | some b =>
      have hbmem : (d, b) ∈ idx := assocFind_mem hfind
      have hkb : k ∉ b := by
        intro hin
        have := (hM d k).mp ⟨b, hbmem, hin⟩
        rw [hk] at this
        exact Option.noConfusion this
      have hfindS : (assocFind idx d).isSome = true := by rw [hfind]; rfl
      refine ⟨assocSet idx d (k :: b), ?_, ⟨sortedIdx_assocSet hWF.1, ?_⟩, ?_⟩
      · simp [applyRecord, hfind, setInsert, hkb]
      · rintro ⟨d1, b1⟩ hp
        rcases (mem_assocSet_iff hkeysnd hfindS).mp hp with ⟨rfl, rfl⟩ | ⟨hmem, _⟩
        · exact ⟨List.cons_ne_nil _ _, List.nodup_cons.mpr ⟨hkb, (hWF.2 _ hbmem).2⟩⟩
        · exact hWF.2 _ hmem
      · intro d0 k0
        unfold updF
        by_cases hk0 : k0 = k
        · subst hk0
          rw [if_pos rfl]
          constructor
          · rintro ⟨b0, hb0, hk0b⟩
            rcases (mem_assocSet_iff hkeysnd hfindS).mp hb0 with ⟨rfl, rfl⟩ | ⟨hmem, _⟩
            · rfl
            · exfalso
              have := (hM d0 k0).mp ⟨b0, hmem, hk0b⟩
              rw [hk] at this
              exact Option.noConfusion this
          · intro h
            have hd0 : d = d0 := Option.some.inj h
            subst hd0
            exact ⟨k0 :: b, (mem_assocSet_iff hkeysnd hfindS).mpr (Or.inl ⟨rfl, rfl⟩),
              List.mem_cons_self _ _⟩
        · rw [if_neg hk0]
          constructor
          · rintro ⟨b0, hb0, hk0b⟩
            rcases (mem_assocSet_iff hkeysnd hfindS).mp hb0 with ⟨rfl, rfl⟩ | ⟨hmem, _⟩
            · rcases List.mem_cons.mp hk0b with rfl | hk0b2
              · exact absurd rfl hk0
              · exact (hM d0 k0).mp ⟨b, hbmem, hk0b2⟩
            · exact (hM d0 k0).mp ⟨b0, hmem, hk0b⟩
          · intro h
            obtain ⟨b0, hmem, hk0b⟩ := (hM d0 k0).mpr h
            by_cases hd0 : d0 = d
            · subst hd0
              have : b0 = b := idx_bucket_unique hkeysnd hmem hbmem
              subst this
              exact ⟨k :: b0, (mem_assocSet_iff hkeysnd hfindS).mpr (Or.inl ⟨rfl, rfl⟩),
                List.mem_cons_of_mem _ hk0b⟩
            · exact ⟨b0, (mem_assocSet_iff hkeysnd hfindS).mpr (Or.inr ⟨hmem, hd0⟩), hk0b⟩
  | none =>
      have hdkeys : d ∉ idxKeys idx := assocFind_eq_none.mp hfind
      refine ⟨smInsertNew idx d [k], ?_, ⟨smInsertNew_sorted hWF.1 hdkeys, ?_⟩, ?_⟩
      · simp [applyRecord, hfind]
      · rintro ⟨d1, b1⟩ hp
        rcases mem_smInsertNew_iff.mp hp with h1 | h1
        · rw [Prod.ext_iff] at h1
          obtain ⟨h1a, h1b⟩ := h1
          simp only at h1a h1b
          subst h1a h1b
          exact ⟨List.cons_ne_nil _ _, List.nodup_singleton _⟩
        · exact hWF.2 _ h1
      · intro d0 k0
        unfold updF
        by_cases hk0 : k0 = k
        · subst hk0
          rw [if_pos rfl]
          constructor
          · rintro ⟨b0, hb0, hk0b⟩
            rcases mem_smInsertNew_iff.mp hb0 with h1 | h1
            · rw [Prod.ext_iff] at h1
              obtain ⟨h1a, _⟩ := h1
              simp only at h1a
              rw [h1a]
            · exfalso
              have := (hM d0 k0).mp ⟨b0, h1, hk0b⟩
              rw [hk] at this
              exact Option.noConfusion this
          · intro h
            have hd0 : d = d0 := Option.some.inj h
            subst hd0
            exact ⟨[k0], mem_smInsertNew_iff.mpr (Or.inl rfl), List.mem_singleton.mpr rfl⟩
        · rw [if_neg hk0]
          constructor
          · rintro ⟨b0, hb0, hk0b⟩
            rcases mem_smInsertNew_iff.mp hb0 with h1 | h1
            · rw [Prod.ext_iff] at h1
              obtain ⟨_, h1b⟩ := h1
              simp only at h1b
              subst h1b
              exact absurd (List.mem_singleton.mp hk0b) hk0
            · exact (hM d0 k0).mp ⟨b0, h1, hk0b⟩
          · intro h
            obtain ⟨b0, hmem, hk0b⟩ := (hM d0 k0).mpr h
            exact ⟨b0, mem_smInsertNew_iff.mpr (Or.inr hmem), hk0b⟩

lemma applyRecord_remove_eq {idx : List (Nat × List K)} {f : K → Option Nat}
    {k : K} {d : Nat} (hWF : WFidx idx) (hM : Matches idx f) (hk : f k = some d) :
    ∃ b, assocFind idx d = some b ∧ k ∈ b ∧
      applyRecord idx ⟨k, d, true⟩ =
        some (if (setErase b k).isEmpty then assocErase idx d
              else assocSet idx d (setErase b k)) := by
  obtain ⟨b, hfind, hkb⟩ := matches_find_bucket hWF hM hk
  refine ⟨b, hfind, hkb, ?_⟩
  by_cases he : (setErase b k).isEmpty
  · simp [applyRecord, hfind, hkb, he]
  · simp [applyRecord, hfind, hkb, he]

lemma applyRecord_remove_inv {idx : List (Nat × List K)} {f : K → Option Nat}
    {k : K} {d : Nat} (hWF : WFidx idx) (hM : Matches idx f) (hk : f k = some d) :
    ∃ idx2, applyRecord idx ⟨k, d, true⟩ = some idx2 ∧ WFidx idx2 ∧
      Matches idx2 (updF f k none) := by
  have hkeysnd : (idx.map Prod.fst).Nodup := sortedIdx_keys_nodup hWF.1
  obtain ⟨b, hfind, hkb, happ⟩ := applyRecord_remove_eq hWF hM hk
  have hbmem : (d, b) ∈ idx := assocFind_mem hfind
  have hbnd : b.Nodup := (hWF.2 _ hbmem).2
  by_cases he : (setErase b k).isEmpty
  · rw [if_pos he] at happ
    have hbk : b = [k] := (setErase_isEmpty_iff hbnd hkb).mp he
    refine ⟨_, happ, ⟨sortedIdx_assocErase hWF.1, ?_⟩, ?_⟩
    · intro p hp
      exact hWF.2 _ (mem_assocErase_of_mem hp)
    · intro d0 k0
      unfold updF
      by_cases hk0 : k0 = k
      · subst hk0
        rw [if_pos rfl]
        constructor
        · rintro ⟨b0, hb0, hk0b⟩
          obtain ⟨hmem, hne⟩ := (mem_assocErase_iff hkeysnd).mp hb0
          have := (hM d0 k0).mp ⟨b0, hmem, hk0b⟩
          rw [hk] at this
          exact absurd (Option.some.inj this).symm hne
        · intro hcon
          exact Option.noConfusion hcon
      · rw [if_neg hk0]
        constructor
        · rintro ⟨b0, hb0, hk0b⟩
          obtain ⟨hmem, _⟩ := (mem_assocErase_iff hkeysnd).mp hb0
          exact (hM d0 k0).mp ⟨b0, hmem, hk0b⟩
        · intro h
          obtain ⟨b0, hmem, hk0b⟩ := (hM d0 k0).mpr h
          have hne : d0 ≠ d := by
            rintro rfl
            have hb0b : b0 = b := idx_bucket_unique hkeysnd hmem hbmem
            subst hb0b
            rw [hbk] at hk0b
            exact hk0 (List.mem_singleton.mp hk0b)
          exact ⟨b0, (mem_assocErase_iff hkeysnd).mpr ⟨hmem, hne⟩, hk0b⟩
  · rw [if_neg he] at happ
    have hfindS : (assocFind idx d).isSome = true := by rw [hfind]; rfl
    refine ⟨_, happ, ⟨sortedIdx_assocSet hWF.1, ?_⟩, ?_⟩
    · rintro ⟨d1, b1⟩ hp
      rcases (mem_assocSet_iff hkeysnd hfindS).mp hp with ⟨rfl, rfl⟩ | ⟨hmem, _⟩
      · constructor
        · intro hnil
          exact he (by rw [show setErase b k = [] from hnil]; rfl)
        · exact setErase_nodup hbnd
      · exact hWF.2 _ hmem
    · intro d0 k0
      unfold updF
      by_cases hk0 : k0 = k
      · subst hk0
        rw [if_pos rfl]
        constructor
        · rintro ⟨b0, hb0, hk0b⟩
          rcases (mem_assocSet_iff hkeysnd hfindS).mp hb0 with ⟨rfl, rfl⟩ | ⟨hmem, hne⟩
          · exact absurd rfl (mem_setErase_iff.mp hk0b).2
          · have := (hM d0 k0).mp ⟨b0, hmem, hk0b⟩
            rw [hk] at this
            exact absurd (Option.some.inj this).symm hne
        · intro hcon
          exact Option.noConfusion hcon
      · rw [if_neg hk0]
        constructor
        · rintro ⟨b0, hb0, hk0b⟩
          rcases (mem_assocSet_iff hkeysnd hfindS).mp hb0 with ⟨rfl, rfl⟩ | ⟨hmem, _⟩
          · exact (hM d0 k0).mp ⟨b, hbmem, (mem_setErase_iff.mp hk0b).1⟩
          · exact (hM d0 k0).mp ⟨b0, hmem, hk0b⟩
        · intro h
          obtain ⟨b0, hmem, hk0b⟩ := (hM d0 k0).mpr h
          by_cases hd0 : d0 = d
          · subst hd0
            have hb0b : b0 = b := idx_bucket_unique hkeysnd hmem hbmem
            subst hb0b
            exact ⟨setErase b0 k, (mem_assocSet_iff hkeysnd hfindS).mpr (Or.inl ⟨rfl, rfl⟩),
              mem_setErase_iff.mpr ⟨hk0b, hk0⟩⟩
          · exact ⟨b0, (mem_assocSet_iff hkeysnd hfindS).mpr (Or.inr ⟨hmem, hd0⟩), hk0b⟩

end ApplyRecordLemmas

/-! ## The merged invariant and its preservation by `put` and `remove` -/

section MergedInvLemmas

variable {K V : Type} [DecidableEq K]

lemma runLog_append (idx : List (Nat × List K)) (l1 l2 : List (TimeoutData K)) :
    runLog idx (l1 ++ l2) =
      match runLog idx l1 with
      | none => none
      | some idx1 => runLog idx1 l2 := by
  induction l1 generalizing idx with
  | nil => simp [runLog]
  | cons r rest ih =>
      simp only [List.cons_append, runLog]
      cases applyRecord idx r with
      | none => rfl
      | some idx1 => exact ih idx1

lemma matches_ext {idx : List (Nat × List K)} {f g : K → Option Nat}
    (hM : Matches idx f) (h : ∀ x, f x = g x) : Matches idx g := by
  intro d k
  rw [← h k]
  exact hM d k

lemma kdm_erase {m : List (K × MapData V)} {k : K} (hnd : lookupNodup m) (x : K) :
    kdm (assocErase m k) x = updF (kdm m) k none x := by
  unfold kdm updF
  by_cases hx : x = k
  · subst hx
    rw [if_pos rfl, assocFind_assocErase_self hnd]
    rfl
  · rw [if_neg hx, assocFind_assocErase_ne hx]

lemma kdm_cons {m : List (K × MapData V)} {k : K} {md : MapData V} (x : K) :
    kdm ((k, md) :: m) x = updF (kdm m) k (some md.timeout) x := by
  by_cases hx : x = k
  · subst hx
    simp [kdm, updF, assocFind]
  · simp [kdm, updF, assocFind, hx, Ne.symm hx]

lemma lookupNodup_erase {m : List (K × MapData V)} {k : K} (hnd : lookupNodup m) :
    lookupNodup (assocErase m k) := assocErase_keys_nodup hnd

lemma lookupNodup_cons {m : List (K × MapData V)} {k : K} {md : MapData V}
    (hnd : lookupNodup m) (habs : assocFind m k = none) :
    lookupNodup ((k, md) :: m) := by
  unfold lookupNodup
  simp only [List.map_cons, List.nodup_cons]
  exact ⟨assocFind_eq_none.mp habs, hnd⟩

lemma put_present {s : ExpireMap K V} {k : K} {md : MapData V} (v : V) (ms now : Nat)
    (hnd : lookupNodup s.lookupMap) (hfind : assocFind s.lookupMap k = some md) :
    s.put k v ms now =
      { appendTimeouts := s.appendTimeouts ++
          [⟨k, md.timeout, true⟩, ⟨k, (now + ms) % U64, false⟩],
        sortedTimeouts := s.sortedTimeouts,
        lookupMap := (k, ⟨v, (now + ms) % U64⟩) :: assocErase s.lookupMap k,
        shutdown := s.shutdown } := by
  have herased : assocFind (assocErase s.lookupMap k) k = none :=
    assocFind_assocErase_self hnd
  simp only [ExpireMap.put, ExpireMap.removeInternal, hfind, Option.isSome_some, if_pos,
    assocInsert, herased, Option.isSome_none, Bool.false_eq_true, if_false, if_true]
  simp [List.append_assoc]

lemma put_absent {s : ExpireMap K V} {k : K} (v : V) (ms now : Nat)
    (hfind : assocFind s.lookupMap k = none) :
    s.put k v ms now =
      { appendTimeouts := s.appendTimeouts ++ [⟨k, (now + ms) % U64, false⟩],
        sortedTimeouts := s.sortedTimeouts,
        lookupMap := (k, ⟨v, (now + ms) % U64⟩) :: s.lookupMap,
        shutdown := s.shutdown } := by
  simp only [ExpireMap.put, assocInsert, hfind, Option.isSome_none, Bool.false_eq_true,
    if_false]

lemma remove_present {s : ExpireMap K V} {k : K} {md : MapData V}
    (hfind : assocFind s.lookupMap k = some md) :
    s.remove k =
      { appendTimeouts := s.appendTimeouts ++ [⟨k, md.timeout, true⟩],
        sortedTimeouts := s.sortedTimeouts,
        lookupMap := assocErase s.lookupMap k,
        shutdown := s.shutdown } := by
  simp only [ExpireMap.remove, ExpireMap.removeInternal, hfind]

lemma remove_absent {s : ExpireMap K V} {k : K}
    (hfind : assocFind s.lookupMap k = none) : s.remove k = s := by
  simp only [ExpireMap.remove, ExpireMap.removeInternal, hfind]

lemma mergedInv_initial : MergedInv (ExpireMap.initial : ExpireMap K V) := by
  refine ⟨List.nodup_nil, [], rfl, ⟨List.Pairwise.nil, ?_⟩, ?_⟩
  · intro p hp
    simp at hp
  · intro d k
    simp [idxMem, kdm, assocFind, ExpireMap.initial]

lemma mergedInv_put {s : ExpireMap K V} (hInv : MergedInv s) (k : K) (v : V)
    (ms now : Nat) : MergedInv (s.put k v ms now) := by
  obtain ⟨hnd, idx, hrun, hWF, hM⟩ := hInv
  cases hfind : assocFind s.lookupMap k with
  | some md =>
      rw [put_present v ms now hnd hfind]
      have hkd : kdm s.lookupMap k = some md.timeout := by
        unfold kdm
        rw [hfind]
        rfl
      obtain ⟨idx1, happ1, hWF1, hM1⟩ := applyRecord_remove_inv hWF hM hkd
      have hk2 : updF (kdm s.lookupMap) k none k = none := by
        unfold updF
        rw [if_pos rfl]
      obtain ⟨idx2, happ2, hWF2, hM2⟩ :=
        applyRecord_insert (d := (now + ms) % U64) hWF1 hM1 hk2
      refine ⟨lookupNodup_cons (lookupNodup_erase hnd) (assocFind_assocErase_self hnd),
        idx2, ?_, hWF2, ?_⟩
      · show runLog s.sortedTimeouts (s.appendTimeouts ++ _) = some idx2
        rw [runLog_append, hrun]
        simp only [runLog, happ1, happ2]
      · apply matches_ext hM2
        intro x
        by_cases hx : x = k
        · subst hx
          rw [kdm_cons]
          unfold updF
          rw [if_pos rfl, if_pos rfl]
        · rw [kdm_cons]
          unfold updF
          rw [if_neg hx, if_neg hx, if_neg hx, kdm_erase hnd x]
          unfold updF
          rw [if_neg hx]
  | none =>
      rw [put_absent v ms now hfind]
      have hkd : kdm s.lookupMap k = none := by
        unfold kdm
        rw [hfind]
        rfl
      obtain ⟨idx2, happ2, hWF2, hM2⟩ :=
        applyRecord_insert (d := (now + ms) % U64) hWF hM hkd
      refine ⟨lookupNodup_cons hnd hfind, idx2, ?_, hWF2, ?_⟩
      · show runLog s.sortedTimeouts (s.appendTimeouts ++ _) = some idx2
        rw [runLog_append, hrun]
        simp only [runLog, happ2]
      · apply matches_ext hM2
        intro x
        rw [kdm_cons]

lemma mergedInv_remove {s : ExpireMap K V} (hInv : MergedInv s) (k : K) :
    MergedInv (s.remove k) := by
  obtain ⟨hnd, idx, hrun, hWF, hM⟩ := hInv
  cases hfind : assocFind s.lookupMap k with
  | some md =>
      rw [remove_present hfind]
      have hkd : kdm s.lookupMap k = some md.timeout := by
        unfold kdm
        rw [hfind]
        rfl
      obtain ⟨idx1, happ1, hWF1, hM1⟩ := applyRecord_remove_inv hWF hM hkd
      refine ⟨lookupNodup_erase hnd, idx1, ?_, hWF1, ?_⟩
      · show runLog s.sortedTimeouts (s.appendTimeouts ++ _) = some idx1
        rw [runLog_append, hrun]
        simp only [runLog, happ1]
      · exact matches_ext hM1 (fun x => (kdm_erase hnd x).symm)
  | none =>
      rw [remove_absent hfind]
      exact ⟨hnd, idx, hrun, hWF, hM⟩

end MergedInvLemmas

/-! ## The eviction loop -/

/-- All keys contained in a list of deadline buckets. -/
def bucketKeys {K : Type} (l : List (Nat × List K)) : List K :=
  l.foldr (fun p acc => p.2 ++ acc) []

/-- Length of the leading run of buckets whose deadline is `≤ now`. -/
def dueCount {K : Type} : List (Nat × List K) → Nat → Nat
  | [], _ => 0
  | (d, _) :: rest, now => if d ≤ now then dueCount rest now + 1 else 0

section EvictLemmas

variable {K V : Type} [DecidableEq K]

lemma mem_bucketKeys {l : List (Nat × List K)} {x : K} :
    x ∈ bucketKeys l ↔ ∃ p ∈ l, x ∈ p.2 := by
  induction l with
  | nil => simp [bucketKeys]
  | cons p rest ih =>
      simp only [bucketKeys, List.foldr_cons, List.mem_append] at *
      constructor
      · rintro (h | h)
        · exact ⟨p, List.mem_cons_self _ _, h⟩
        · obtain ⟨q, hq, hxq⟩ := ih.mp h
          exact ⟨q, List.mem_cons_of_mem _ hq, hxq⟩
      · rintro ⟨q, hq, hxq⟩
        rcases List.mem_cons.mp hq with rfl | hq2
        · exact Or.inl hxq
        · exact Or.inr (ih.mpr ⟨q, hq2, hxq⟩)

lemma eraseAllKeys_spec {b : List K} {m : List (K × MapData V)}
    (hnd : lookupNodup m) (hbnd : b.Nodup)
    (hpres : ∀ k ∈ b, (assocFind m k).isSome = true) :
    ∃ m1, ExpireMap.eraseAllKeys b m = some m1 ∧ lookupNodup m1 ∧
      ∀ x, assocFind m1 x = if x ∈ b then none else assocFind m x := by
  induction b generalizing m with
  | nil =>
      refine ⟨m, rfl, hnd, ?_⟩
      intro x
      simp
  | cons k ks ih =>
      have hk : (assocFind m k).isSome = true := hpres k (List.mem_cons_self _ _)
      obtain ⟨hknotks, hksnd⟩ := List.nodup_cons.mp hbnd
      have hpres2 : ∀ x ∈ ks, (assocFind (assocErase m k) x).isSome = true := by
        intro x hx
        have hxk : x ≠ k := fun hxk => hknotks (hxk ▸ hx)
        rw [assocFind_assocErase_ne hxk]
        exact hpres x (List.mem_cons_of_mem _ hx)
      obtain ⟨m1, hrun, hnd1, hchar⟩ := ih (lookupNodup_erase hnd) hksnd hpres2
      refine ⟨m1, ?_, hnd1, ?_⟩
      · rw [show ExpireMap.eraseAllKeys (k :: ks) m =
              ExpireMap.eraseAllKeys ks (assocErase m k) from by
            simp [ExpireMap.eraseAllKeys, hk]]
        exact hrun
      · intro x
        rw [hchar x]
        by_cases hxks : x ∈ ks
        · simp [hxks]
        · by_cases hxk : x = k
          · subst hxk
            simp only [hxks, if_false, List.mem_cons, true_or, if_true]
            exact assocFind_assocErase_self hnd
          · simp only [hxks, if_false, List.mem_cons, hxk, false_or]
            exact assocFind_assocErase_ne hxk

lemma evictLoop_spec {idx : List (Nat × List K)} {m : List (K × MapData V)} {now c : Nat}
    (hWF : WFidx idx) (hM : Matches idx (kdm m)) (hnd : lookupNodup m) :
    ∃ m1, ExpireMap.evictLoop idx m now c =
        some (idx.drop (min (ExpireMap.MAX_RECLAIM_ENTRIES - c) (dueCount idx now)), m1) ∧
      lookupNodup m1 ∧
      (∀ x, assocFind m1 x =
        if x ∈ bucketKeys
            (idx.take (min (ExpireMap.MAX_RECLAIM_ENTRIES - c) (dueCount idx now)))
        then none else assocFind m x) := by
  induction idx generalizing m c with
  | nil =>
      refine ⟨m, ?_, hnd, ?_⟩
      · simp [ExpireMap.evictLoop, dueCount]
      · intro x
        simp [bucketKeys, dueCount]
  | cons p rest ih =>
      obtain ⟨d, b⟩ := p
      by_cases hc : c < ExpireMap.MAX_RECLAIM_ENTRIES
      · by_cases hd : d ≤ now
        · have hbmem : (d, b) ∈ (d, b) :: rest := List.mem_cons_self _ _
          have hpres : ∀ k ∈ b, (assocFind m k).isSome = true := by
            intro k hk
            have hsome := (hM d k).mp ⟨b, hbmem, hk⟩
            unfold kdm at hsome
            cases hf : assocFind m k with
            | none => rw [hf] at hsome; exact Option.noConfusion hsome
            | some _ => rfl
          obtain ⟨m0, hzero, hnd0, hchar0⟩ := eraseAllKeys_spec hnd (hWF.2 _ hbmem).2 hpres
          have hWFrest : WFidx rest := by
            constructor
            · exact (List.pairwise_cons.mp hWF.1).2
            · intro q hq
              exact hWF.2 _ (List.mem_cons_of_mem _ hq)
          have hheadlt : ∀ y ∈ idxKeys rest, d < y := by
            intro y hy
            exact (List.pairwise_cons.mp hWF.1).1 y hy
          have hMrest : Matches rest (kdm m0) := by
            intro d0 k0
            have hk0m0 : kdm m0 k0 = if k0 ∈ b then none else kdm m k0 := by
              unfold kdm
              rw [hchar0 k0]
              by_cases hx : k0 ∈ b <;> simp [hx]
            by_cases hxb : k0 ∈ b
            · rw [hk0m0, if_pos hxb]
              constructor
              · rintro ⟨b0, hb0, hk0b⟩
                have h1 := (hM d0 k0).mp ⟨b0, List.mem_cons_of_mem _ hb0, hk0b⟩
                have h2 := (hM d k0).mp ⟨b, hbmem, hxb⟩
                rw [h1] at h2
                have hd0d : d = d0 := (Option.some.inj h2).symm
                subst hd0d
                exact absurd (hheadlt d (List.mem_map.mpr ⟨(d, b0), hb0, rfl⟩))
                  (Nat.lt_irrefl d)
              · intro hcon
                exact Option.noConfusion hcon
            · rw [hk0m0, if_neg hxb]
              constructor
              · rintro ⟨b0, hb0, hk0b⟩
                exact (hM d0 k0).mp ⟨b0, List.mem_cons_of_mem _ hb0, hk0b⟩
              · intro h
                obtain ⟨b0, hb0, hk0b⟩ := (hM d0 k0).mpr h
                rcases List.mem_cons.mp hb0 with heq | hb0r
                · rw [Prod.ext_iff] at heq
                  obtain ⟨h1, h2⟩ := heq
                  simp only at h1 h2
                  subst h2
                  exact absurd hk0b hxb
                · exact ⟨b0, hb0r, hk0b⟩
          obtain ⟨m1, hrun1, hnd1, hchar1⟩ := ih (c := c + 1) hWFrest hMrest hnd0
          have hn : min (ExpireMap.MAX_RECLAIM_ENTRIES - c) (dueCount ((d, b) :: rest) now)
              = min (ExpireMap.MAX_RECLAIM_ENTRIES - (c + 1)) (dueCount rest now) + 1 := by
            rw [show dueCount ((d, b) :: rest) now = dueCount rest now + 1 from by
              simp [dueCount, hd]]
            unfold ExpireMap.MAX_RECLAIM_ENTRIES at hc ⊢
            omega
          refine ⟨m1, ?_, hnd1, ?_⟩
          · rw [show ExpireMap.evictLoop ((d, b) :: rest) m now c =
                  ExpireMap.evictLoop rest m0 now (c + 1) from by
                simp [ExpireMap.evictLoop, hc, hd, hzero]]
            rw [hrun1, hn, List.drop_succ_cons]
          · intro x
            rw [hn, List.take_succ_cons]
            rw [show bucketKeys ((d, b) ::
                  List.take (min (ExpireMap.MAX_RECLAIM_ENTRIES - (c + 1))
                    (dueCount rest now)) rest) = b ++ bucketKeys
                  (List.take (min (ExpireMap.MAX_RECLAIM_ENTRIES - (c + 1))
                    (dueCount rest now)) rest) from rfl]
            rw [hchar1 x, hchar0 x]
            by_cases hx1 : x ∈ bucketKeys (List.take (min
                (ExpireMap.MAX_RECLAIM_ENTRIES - (c + 1)) (dueCount rest now)) rest)
            · simp [hx1]
            · by_cases hx2 : x ∈ b <;> simp [hx1, hx2]
        · have hn0 : min (ExpireMap.MAX_RECLAIM_ENTRIES - c)
              (dueCount ((d, b) :: rest) now) = 0 := by
            simp [dueCount, hd]
          refine ⟨m, ?_, hnd, ?_⟩
          · rw [hn0, List.drop_zero]
            simp [ExpireMap.evictLoop, hc, hd]
          · intro x
            rw [hn0]
            simp [bucketKeys]
      · have hn0 : min (ExpireMap.MAX_RECLAIM_ENTRIES - c)
            (dueCount ((d, b) :: rest) now) = 0 := by
          have : ExpireMap.MAX_RECLAIM_ENTRIES - c = 0 := by
            unfold ExpireMap.MAX_RECLAIM_ENTRIES at hc ⊢
            omega
          rw [this]
          exact Nat.zero_min _
        refine ⟨m, ?_, hnd, ?_⟩
        · rw [hn0, List.drop_zero]
          simp [ExpireMap.evictLoop, hc]
        · intro x
          rw [hn0]
          simp [bucketKeys]

end EvictLemmas

/-! ## The reclaim round and reachability -/

section ReclaimLemmas

variable {K V : Type} [DecidableEq K]

lemma reclaimRound_spec {s : ExpireMap K V} (hInv : MergedInv s) (now : Nat) :
    ∃ idx m1, runLog s.sortedTimeouts s.appendTimeouts = some idx ∧
      ExpireMap.reclaimRound s now = some
        { appendTimeouts := [],
          sortedTimeouts :=
            idx.drop (min ExpireMap.MAX_RECLAIM_ENTRIES (dueCount idx now)),
          lookupMap := m1,
          shutdown := s.shutdown } ∧
      WFidx idx ∧ Matches idx (kdm s.lookupMap) ∧ lookupNodup m1 ∧
      (∀ x, assocFind m1 x =
        if x ∈ bucketKeys (idx.take (min ExpireMap.MAX_RECLAIM_ENTRIES (dueCount idx now)))
        then none else assocFind s.lookupMap x) := by
  obtain ⟨hnd, idx, hrun, hWF, hM⟩ := hInv
  obtain ⟨m1, hev, hnd1, hchar⟩ := @evictLoop_spec K V _ idx s.lookupMap now 0 hWF hM hnd
  rw [Nat.sub_zero] at hev hchar
  refine ⟨idx, m1, hrun, ?_, hWF, hM, hnd1, hchar⟩
  simp only [ExpireMap.reclaimRound, ExpireMap.populateSortedTimeouts, hrun, hev]

lemma mergedInv_of_reclaimRound {s s1 : ExpireMap K V} (hInv : MergedInv s)
    {now : Nat} (h : ExpireMap.reclaimRound s now = some s1) : MergedInv s1 := by
  obtain ⟨idx, m1, hrun, heq, hWF, hM, hnd1, hchar⟩ := reclaimRound_spec hInv now
  rw [heq] at h
  obtain rfl := Option.some.inj h
  set n := min ExpireMap.MAX_RECLAIM_ENTRIES (dueCount idx now) with hn
  have hkeysnd : (idx.map Prod.fst).Nodup := sortedIdx_keys_nodup hWF.1
  have hsplit : idx.take n ++ idx.drop n = idx := List.take_append_drop n idx
  have hdisj : ∀ d0 : Nat, d0 ∈ (idx.take n).map Prod.fst →
      d0 ∈ (idx.drop n).map Prod.fst → False := by
    intro d0 h1 h2
    have : (idx.map Prod.fst).Nodup := hkeysnd
    rw [← hsplit, List.map_append] at this
    exact (List.disjoint_of_nodup_append this) h1 h2
  have hkdm1 : ∀ x, kdm m1 x =
      if x ∈ bucketKeys (idx.take n) then none else kdm s.lookupMap x := by
    intro x
    unfold kdm
    rw [hchar x]
    by_cases hx : x ∈ bucketKeys (idx.take n) <;> simp [hx]
  refine ⟨hnd1, idx.drop n, rfl, ⟨?_, ?_⟩, ?_⟩
  · exact hWF.1.sublist ((idx.drop_sublist n).map Prod.fst)
  · intro p hp
    exact hWF.2 _ ((idx.drop_sublist n).mem hp)
  · intro d0 k0
    constructor
    · rintro ⟨b0, hb0, hk0b⟩
      have hfull : idxMem idx d0 k0 :=
        ⟨b0, (idx.drop_sublist n).mem hb0, hk0b⟩
      have hk0kdm := (hM d0 k0).mp hfull
      have hnotin : k0 ∉ bucketKeys (idx.take n) := by
        intro hin
        obtain ⟨q, hq, hk0q⟩ := mem_bucketKeys.mp hin
        obtain ⟨d2, b2⟩ := q
        have hfull2 : idxMem idx d2 k0 := ⟨b2, (idx.take_sublist n).mem hq, hk0q⟩
        have hd2 : d2 = d0 := matches_fun hM hfull2 hfull
        subst hd2
        exact hdisj d2 (List.mem_map.mpr ⟨(d2, b2), hq, rfl⟩)
          (List.mem_map.mpr ⟨(d2, b0), hb0, rfl⟩)
      rw [hkdm1 k0, if_neg hnotin]
      exact hk0kdm
    · intro h0
      have hnotin : k0 ∉ bucketKeys (idx.take n) := by
        intro hin
        rw [hkdm1 k0, if_pos hin] at h0
        exact Option.noConfusion h0
      rw [hkdm1 k0, if_neg hnotin] at h0
      obtain ⟨b0, hb0, hk0b⟩ := (hM d0 k0).mpr h0
      rw [← hsplit] at hb0
      rcases List.mem_append.mp hb0 with htake | hdrop
      · exact absurd (mem_bucketKeys.mpr ⟨(d0, b0), htake, hk0b⟩) hnotin
      · exact ⟨b0, hdrop, hk0b⟩

lemma reachable_mergedInv {s : ExpireMap K V} (h : Reachable s) : MergedInv s := by
  induction h with
  | init => exact mergedInv_initial
  | put s k v ms now _ ih => exact mergedInv_put ih k v ms now
  | remove s k _ ih => exact mergedInv_remove ih k
  | reclaim s s1 now _ hstep ih => exact mergedInv_of_reclaimRound ih hstep
  | cleanup s _ ih =>
      obtain ⟨hnd, idx, hrun, hWF, hM⟩ := ih
      exact ⟨hnd, idx, hrun, hWF, hM⟩

end ReclaimLemmas

/-! ## Termination of the reclaimer after shutdown -/

/-- Termination measure for the reclaimer loop once shutdown is requested:
twice the number of buckets the merge would leave, plus one if the loop must
first sit out a timed wait. -/
def stepMeasure {K V : Type} [DecidableEq K] (s : ExpireMap K V) (now : Nat) : Nat :=
  match runLog s.sortedTimeouts s.appendTimeouts with
  | none => 0
  | some idx =>
      2 * idx.length + (if idx ≠ [] ∧ now < ExpireMap.minTimeout idx then 1 else 0)

section ShutdownLemmas

variable {K V : Type} [DecidableEq K]

lemma reclaimStep_shutdown_progress {s : ExpireMap K V} (hR : Reachable s)
    (hsd : s.shutdown = true) (now : Nat) :
    reclaimStep s now = ReclaimOut.stopped ∨
    ∃ s1 now1, reclaimStep s now = ReclaimOut.next s1 now1 ∧ Reachable s1 ∧
      s1.shutdown = true ∧ stepMeasure s1 now1 < stepMeasure s now := by
  obtain ⟨hnd, idx, hrun, hWF, hM⟩ := reachable_mergedInv hR
  have hpop : ExpireMap.populateSortedTimeouts s =
      some { s with sortedTimeouts := idx, appendTimeouts := [] } := by
    simp [ExpireMap.populateSortedTimeouts, hrun]
  cases idx with
  | nil =>
      left
      simp [reclaimStep, hpop, hsd]
  | cons p rest =>
      obtain ⟨d, b⟩ := p
      right
      by_cases hlt : now < d
      · refine ⟨{ s with sortedTimeouts := (d, b) :: rest, appendTimeouts := [] }, d,
          ?_, ?_, hsd, ?_⟩
        · simp [reclaimStep, hpop, hlt]
        · apply Reachable.reclaim s _ now hR
          have hnle : ¬ d ≤ now := Nat.not_le.mpr hlt
          have hev : ExpireMap.evictLoop ((d, b) :: rest) s.lookupMap now 0 =
              some ((d, b) :: rest, s.lookupMap) := by
            simp [ExpireMap.evictLoop, ExpireMap.MAX_RECLAIM_ENTRIES, hnle]
          simp [ExpireMap.reclaimRound, hpop, hev]
        · unfold stepMeasure
          rw [hrun]
          rw [show runLog ((d, b) :: rest) ([] : List (TimeoutData K)) =
                some ((d, b) :: rest) from rfl]
          simp only [ExpireMap.minTimeout, ne_eq, reduceCtorEq, not_false_iff, true_and,
            Nat.lt_irrefl, and_false, if_false, hlt, if_true]
          omega
      · have hle : d ≤ now := Nat.not_lt.mp hlt
        obtain ⟨m1, hev, hnd1, hchar⟩ :=
          @evictLoop_spec K V _ ((d, b) :: rest) s.lookupMap now 0 hWF hM hnd
        rw [Nat.sub_zero] at hev hchar
        refine ⟨{ s with
            sortedTimeouts := ((d, b) :: rest).drop
              (min ExpireMap.MAX_RECLAIM_ENTRIES (dueCount ((d, b) :: rest) now)),
            appendTimeouts := [], lookupMap := m1 }, now, ?_, ?_, hsd, ?_⟩
        · simp [reclaimStep, hpop, hlt, hev]
        · apply Reachable.reclaim s _ now hR
          simp [ExpireMap.reclaimRound, hpop, hev]
        · unfold stepMeasure
          rw [hrun]
          rw [show runLog (((d, b) :: rest).drop
              (min ExpireMap.MAX_RECLAIM_ENTRIES (dueCount ((d, b) :: rest) now)))
              ([] : List (TimeoutData K)) = some (((d, b) :: rest).drop
              (min ExpireMap.MAX_RECLAIM_ENTRIES (dueCount ((d, b) :: rest) now))) from rfl]
          have hdue : 1 ≤ dueCount ((d, b) :: rest) now := by
            simp [dueCount, hle]
          have hn1 : 1 ≤ min ExpireMap.MAX_RECLAIM_ENTRIES (dueCount ((d, b) :: rest) now) := by
            unfold ExpireMap.MAX_RECLAIM_ENTRIES
            omega
          have hlen := List.length_drop
            (min ExpireMap.MAX_RECLAIM_ENTRIES (dueCount ((d, b) :: rest) now))
            ((d, b) :: rest)
          have hlencons : ((d, b) :: rest).length = rest.length + 1 := List.length_cons _ _
          dsimp only
          split_ifs <;> omega

lemma shutdown_terminates_aux (fuel : Nat) :
    ∀ (s : ExpireMap K V) (now : Nat), stepMeasure s now < fuel → Reachable s →
      s.shutdown = true → ∃ n, iterSteps n s now = ReclaimOut.stopped := by
  induction fuel with
  | zero =>
      intro s now hlt
      exact absurd hlt (Nat.not_lt_zero _)
  | succ fuel ih =>
      intro s now hlt hR hsd
      rcases reclaimStep_shutdown_progress hR hsd now with hstop |
        ⟨s1, now1, hstep, hR1, hsd1, hdec⟩
      · exact ⟨0, hstop⟩
      · obtain ⟨n, hn⟩ := ih s1 now1 (by omega) hR1 hsd1
        refine ⟨n + 1, ?_⟩
        simp only [iterSteps, hstep]
        exact hn

end ShutdownLemmas

/-! ## Further helpers for the claim theorems -/

section ClaimHelpers

variable {K V : Type} [DecidableEq K]

lemma dueCount_take_le {now : Nat} :
    ∀ {idx : List (Nat × List K)} {j : Nat}, j ≤ dueCount idx now →
      ∀ p ∈ idx.take j, p.1 ≤ now := by
  intro idx
  induction idx with
  | nil =>
      intro j _ p hp
      simp at hp
  | cons q rest ih =>
      obtain ⟨d, b⟩ := q
      intro j hj p hp
      by_cases hd : d ≤ now
      · rw [show dueCount ((d, b) :: rest) now = dueCount rest now + 1 from by
          simp [dueCount, hd]] at hj
        cases j with
        | zero => simp at hp
        | succ j0 =>
            rw [List.take_succ_cons] at hp
            rcases List.mem_cons.mp hp with rfl | hp2
            · exact hd
            · exact ih (Nat.le_of_succ_le_succ hj) p hp2
      · rw [show dueCount ((d, b) :: rest) now = 0 from by simp [dueCount, hd]] at hj
        rw [Nat.le_zero.mp hj] at hp
        simp at hp

lemma dueCount_drop_head {now : Nat} :
    ∀ {idx : List (Nat × List K)} {p : Nat × List K},
      (idx.drop (dueCount idx now)).head? = some p → now < p.1 := by
  intro idx
  induction idx with
  | nil =>
      intro p hp
      simp [dueCount] at hp
  | cons q rest ih =>
      obtain ⟨d, b⟩ := q
      intro p hp
      by_cases hd : d ≤ now
      · rw [show dueCount ((d, b) :: rest) now = dueCount rest now + 1 from by
          simp [dueCount, hd], List.drop_succ_cons] at hp
        exact ih hp
      · rw [show dueCount ((d, b) :: rest) now = 0 from by simp [dueCount, hd],
          List.drop_zero, List.head?_cons] at hp
        obtain rfl := Option.some.inj hp
        exact Nat.not_le.mp hd

lemma filter_key_eq_nil {κ α : Type} [DecidableEq κ] {m : List (κ × α)} {k : κ}
    (h : assocFind m k = none) : m.filter (fun p => decide (p.1 = k)) = [] := by
  induction m with
  | nil => rfl
  | cons q rest ih =>
      obtain ⟨k1, a⟩ := q
      by_cases hk1 : k1 = k
      · rw [show assocFind ((k1, a) :: rest) k = some a from by simp [assocFind, hk1]] at h
        exact Option.noConfusion h
      · rw [show assocFind ((k1, a) :: rest) k = assocFind rest k from by
          simp [assocFind, hk1]] at h
        simpa [List.filter_cons, hk1] using ih h

lemma reclaimRound_preserves_unexpired {s s3 : ExpireMap K V} {k : K} {md : MapData V}
    {t : Nat} (hR : Reachable s) (hfind : assocFind s.lookupMap k = some md)
    (ht : t < md.timeout) (hstep : ExpireMap.reclaimRound s t = some s3) :
    assocFind s3.lookupMap k = some md := by
  obtain ⟨idx, m1, hrun, heq, hWF, hM, hnd1, hchar⟩ :=
    reclaimRound_spec (reachable_mergedInv hR) t
  rw [heq] at hstep
  obtain rfl := Option.some.inj hstep
  show assocFind m1 k = some md
  rw [hchar k]
  have hnotin : k ∉ bucketKeys
      (idx.take (min ExpireMap.MAX_RECLAIM_ENTRIES (dueCount idx t))) := by
    intro hin
    obtain ⟨q, hq, hkq⟩ := mem_bucketKeys.mp hin
    obtain ⟨d0, b0⟩ := q
    have hdue : d0 ≤ t :=
      dueCount_take_le (Nat.min_le_right _ _) (d0, b0) hq
    have hmem : idxMem idx d0 k :=
      ⟨b0, (idx.take_sublist _).mem hq, hkq⟩
    have := (hM d0 k).mp hmem
    unfold kdm at this
    rw [hfind] at this
    have hd0 : md.timeout = d0 := Option.some.inj this
    omega
  rw [if_neg hnotin]
  exact hfind

end ClaimHelpers

/-! ## Claim theorems -/

/-- **C5.** `get` on any state and key: reports absent when the key is missing
from the entry table; reports absent when the key is present but its stored
deadline is `≤ now` (lazy expiry); otherwise returns a copy of the stored
value.  The embedding of `get` is a pure function of the state — mirroring
that the source `get` performs no writes — so in the expired case the entry
table, pending log and deadline index are untouched and physical removal is
left to the reclaimer. -/
theorem c5_get_semantics {K V : Type} [DecidableEq K] (s : ExpireMap K V) (k : K)
    (now : Nat) :
    (assocFind s.lookupMap k = none → s.get k now = none) ∧
    (∀ md : MapData V, assocFind s.lookupMap k = some md → md.timeout ≤ now →
        s.get k now = none) ∧
    (∀ md : MapData V, assocFind s.lookupMap k = some md → now < md.timeout →
        s.get k now = some md.value) := by
  refine ⟨?_, ?_, ?_⟩
  · intro h
    simp [ExpireMap.get, h]
  · intro md h hle
    simp [ExpireMap.get, h, hle]
  · intro md h hlt
    simp [ExpireMap.get, h, Nat.not_le.mpr hlt]

theorem c5_get_semantics_witness :
    (ExpireMap.initial : ExpireMap Nat Nat).get 0 0 = none ∧
    (⟨[], [], [(1, ⟨7, 5⟩)], false⟩ : ExpireMap Nat Nat).get 1 5 = none ∧
    (⟨[], [], [(1, ⟨7, 5⟩)], false⟩ : ExpireMap Nat Nat).get 1 4 = some 7 :=
  ⟨(c5_get_semantics ExpireMap.initial 0 0).1 (by decide),
   (c5_get_semantics ⟨[], [], [(1, ⟨7, 5⟩)], false⟩ 1 5).2.1 ⟨7, 5⟩ (by decide) (by decide),
   (c5_get_semantics ⟨[], [], [(1, ⟨7, 5⟩)], false⟩ 1 4).2.2 ⟨7, 5⟩ (by decide) (by decide)⟩

/-- **C9.** `remove` of a key absent from the entry table is a defined no-op,
not an error: it returns normally with the whole state — entry table, pending
log, deadline index (and shutdown flag) — unchanged. -/
theorem c9_remove_absent_noop {K V : Type} [DecidableEq K] (s : ExpireMap K V)
    (k : K) (h : assocFind s.lookupMap k = none) : s.remove k = s :=
  remove_absent h

theorem c9_remove_absent_noop_witness :
    (ExpireMap.initial : ExpireMap Nat Nat).remove 5 = ExpireMap.initial :=
  c9_remove_absent_noop ExpireMap.initial 5 (by decide)

/-- **C4 counterexample.** The claim asserts that `put` followed immediately
by `get` finds the key for *every* ttl from `1` to `2 ^ 64 - 1`.  With
`ttl = 2 ^ 64 - 1` at time `1`, the uint64 deadline computation
`now + ttl` wraps to `0 ≤ now`, the entry is born already expired, and `get`
reports absent. -/
theorem c4_counterexample :
    (ExpireMap.initial.put 0 0 (2 ^ 64 - 1) 1 : ExpireMap Nat Nat).get 0 1 = none := by
  decide

/-- **C4 (amended).** For every reachable prior state and every `ttl > 0`,
immediately after `put (k, v, ttl)` at time `now`, `get k` returns the stored
value — provided the uint64 deadline computation does not wrap, i.e.
`now + ttl < 2 ^ 64`.  (With wraparound the entry is born already expired —
see the counterexample.) -/
theorem c4_put_get_amended {K V : Type} [DecidableEq K] (s : ExpireMap K V)
    (k : K) (v : V) (ttl now : Nat) (hR : Reachable s) (h1 : 0 < ttl)
    (h2 : now + ttl < U64) : (s.put k v ttl now).get k now = some v := by
  obtain ⟨hnd, _, _, _, _⟩ := reachable_mergedInv hR
  have hnle : ¬ ((now + ttl) % U64 ≤ now) := by
    rw [Nat.mod_eq_of_lt h2]
    omega
  cases hfind : assocFind s.lookupMap k with
  | some md =>
      rw [put_present v ttl now hnd hfind]
      simp [ExpireMap.get, assocFind, hnle]
  | none =>
      rw [put_absent v ttl now hfind]
      simp [ExpireMap.get, assocFind, hnle]

theorem c4_put_get_amended_witness :
    (ExpireMap.initial.put 1 7 5 0 : ExpireMap Nat Nat).get 1 0 = some 7 :=
  c4_put_get_amended ExpireMap.initial 1 7 5 0 Reachable.init (by decide) (by decide)

/-- **C10.** Expiry at the exact deadline instant is inclusive:
(1) `get` treats an entry whose stored deadline *equals* the current time as
already expired; (2) `put (k, v, 0)` at time `now < 2 ^ 64` creates an entry
whose deadline is the insertion instant, so `get k` at any time `t ≥ now`
reports absent; (3) a reclaim round at time `now` evicts a merged bucket
whose deadline equals `now` (the comparison in the eviction loop is `≤`),
removing its keys from the entry table. -/
theorem c10_inclusive_expiry {K V : Type} [DecidableEq K] :
    (∀ (s : ExpireMap K V) (k : K) (md : MapData V) (now : Nat),
        assocFind s.lookupMap k = some md → md.timeout = now → s.get k now = none) ∧
    (∀ (s : ExpireMap K V) (k : K) (v : V) (now : Nat), Reachable s → now < U64 →
        assocFind (s.put k v 0 now).lookupMap k = some ⟨v, now⟩ ∧
        ∀ t, now ≤ t → (s.put k v 0 now).get k t = none) ∧
    (∀ (s : ExpireMap K V) (now : Nat) (b : List K) (rest : List (Nat × List K)),
        Reachable s →
        runLog s.sortedTimeouts s.appendTimeouts = some ((now, b) :: rest) →
        ∃ s1 j, ExpireMap.reclaimRound s now = some s1 ∧
          s1.sortedTimeouts = rest.drop j ∧
          ∀ k ∈ b, assocFind s1.lookupMap k = none) := by
  refine ⟨?_, ?_, ?_⟩
  · intro s k md now hfind hdl
    simp [ExpireMap.get, hfind, hdl]
  · intro s k v now hR hU
    obtain ⟨hnd, _, _, _, _⟩ := reachable_mergedInv hR
    have hmod : (now + 0) % U64 = now := by
      rw [Nat.add_zero]
      exact Nat.mod_eq_of_lt hU
    have hfd : assocFind (s.put k v 0 now).lookupMap k = some ⟨v, now⟩ := by
      cases hfind : assocFind s.lookupMap k with
      | some md =>
          rw [put_present v 0 now hnd hfind]
          simp [assocFind, Nat.mod_eq_of_lt hU]
      | none =>
          rw [put_absent v 0 now hfind]
          simp [assocFind, Nat.mod_eq_of_lt hU]
    refine ⟨hfd, ?_⟩
    intro t ht
    simp [ExpireMap.get, hfd, ht]
  · intro s now b rest hR hrun2
    obtain ⟨idx, m1, hrun, heq, hWF, hM, hnd1, hchar⟩ :=
      reclaimRound_spec (reachable_mergedInv hR) now
    rw [hrun] at hrun2
    obtain rfl := Option.some.inj hrun2
    have hdc : dueCount ((now, b) :: rest) now = dueCount rest now + 1 := by
      simp [dueCount]
    have hn1 : 1 ≤ min ExpireMap.MAX_RECLAIM_ENTRIES (dueCount ((now, b) :: rest) now) := by
      rw [hdc]
      unfold ExpireMap.MAX_RECLAIM_ENTRIES
      omega
    refine ⟨_, min ExpireMap.MAX_RECLAIM_ENTRIES (dueCount ((now, b) :: rest) now) - 1,
      heq, ?_, ?_⟩
    · show ((now, b) :: rest).drop
          (min ExpireMap.MAX_RECLAIM_ENTRIES (dueCount ((now, b) :: rest) now)) = _
      rw [show min ExpireMap.MAX_RECLAIM_ENTRIES (dueCount ((now, b) :: rest) now) =
          (min ExpireMap.MAX_RECLAIM_ENTRIES (dueCount ((now, b) :: rest) now) - 1) + 1
          from by omega]
      exact List.drop_succ_cons
    · intro k hk
      show assocFind m1 k = none
      rw [hchar k]
      rw [if_pos ?_]
      rw [show min ExpireMap.MAX_RECLAIM_ENTRIES (dueCount ((now, b) :: rest) now) =
          (min ExpireMap.MAX_RECLAIM_ENTRIES (dueCount ((now, b) :: rest) now) - 1) + 1
          from by omega, List.take_succ_cons]
      exact mem_bucketKeys.mpr ⟨(now, b), List.mem_cons_self _ _, hk⟩

theorem c10_inclusive_expiry_witness :
    (⟨[], [], [(1, ⟨7, 5⟩)], false⟩ : ExpireMap Nat Nat).get 1 5 = none ∧
    assocFind (ExpireMap.initial.put 2 9 0 3 : ExpireMap Nat Nat).lookupMap 2 =
      some ⟨9, 3⟩ ∧
    (ExpireMap.initial.put 2 9 0 3 : ExpireMap Nat Nat).get 2 3 = none :=
  ⟨(c10_inclusive_expiry (K := Nat) (V := Nat)).1 ⟨[], [], [(1, ⟨7, 5⟩)], false⟩ 1
      ⟨7, 5⟩ 5 (by decide) (by decide),
   ((c10_inclusive_expiry (K := Nat) (V := Nat)).2.1 ExpireMap.initial 2 9 3
      Reachable.init (by decide)).1,
   ((c10_inclusive_expiry (K := Nat) (V := Nat)).2.1 ExpireMap.initial 2 9 3
      Reachable.init (by decide)).2 3 (by decide)⟩

/-- **C2.** At every quiescent point (pending log empty) of every reachable
state — in particular immediately after each merge by the reclaimer — the
deadline index is exactly the deadline-to-keys relation of the entry table:
every key of the entry table lies in a bucket for exactly its stored deadline,
a key lies in buckets of at most one deadline and deadlines are unique in the
index (so the bucket is unique), every key of every bucket is in the entry
table with that bucket's deadline, and no bucket is empty.  Since this is
proved for every reachable state, every operation — `put`, `remove`, merge and
reclaim round — preserves it at such points. -/
theorem c2_quiescent_matches {K V : Type} [DecidableEq K] (s : ExpireMap K V)
    (hR : Reachable s) (hq : s.appendTimeouts = []) :
    (∀ k d, kdm s.lookupMap k = some d → ∃ b, (d, b) ∈ s.sortedTimeouts ∧ k ∈ b) ∧
    (∀ d d2 k, idxMem s.sortedTimeouts d k → idxMem s.sortedTimeouts d2 k → d = d2) ∧
    (s.sortedTimeouts.map Prod.fst).Nodup ∧
    (∀ d k, idxMem s.sortedTimeouts d k → kdm s.lookupMap k = some d) ∧
    (∀ p ∈ s.sortedTimeouts, p.2 ≠ []) := by
  obtain ⟨hnd, idx, hrun, hWF, hM⟩ := reachable_mergedInv hR
  rw [hq, show runLog s.sortedTimeouts ([] : List (TimeoutData K)) =
      some s.sortedTimeouts from rfl] at hrun
  obtain rfl := Option.some.inj hrun
  exact ⟨fun k d h => (hM d k).mpr h,
    fun d d2 k h1 h2 => matches_fun hM h1 h2,
    sortedIdx_keys_nodup hWF.1,
    fun d k h => (hM d k).mp h,
    fun p hp => (hWF.2 p hp).1⟩

theorem c2_quiescent_matches_witness :
    kdm (⟨[], [(100, [1])], [(1, ⟨7, 100⟩)], false⟩ : ExpireMap Nat Nat).lookupMap 1 =
      some 100 := by
  have hR : Reachable (⟨[], [(100, [1])], [(1, ⟨7, 100⟩)], false⟩ : ExpireMap Nat Nat) :=
    Reachable.reclaim (ExpireMap.initial.put 1 7 100 0) _ 0
      (Reachable.put ExpireMap.initial 1 7 100 0 Reachable.init) (by decide)
  exact (c2_quiescent_matches _ hR rfl).2.2.2.1 100 1 ⟨[1], by decide, by decide⟩

/-- **C6.** In every reachable state, a reclaim round at any time never fires
an assertion (the round returns a state rather than aborting); in particular,
for every due bucket of the merged index — deadline `≤` the time sampled for
the round — every key of that bucket is present in the entry table, so each
per-key deletion removes exactly one entry and the debug assertion
`assert(result == 1)` never fires. -/
theorem c6_eviction_assert_safe {K V : Type} [DecidableEq K] (s : ExpireMap K V)
    (now : Nat) (hR : Reachable s) :
    (ExpireMap.reclaimRound s now).isSome = true ∧
    (∀ idx, runLog s.sortedTimeouts s.appendTimeouts = some idx →
      ∀ d b, (d, b) ∈ idx → d ≤ now → ∀ k ∈ b,
        (assocFind s.lookupMap k).isSome = true) := by
  obtain ⟨idx, m1, hrun, heq, hWF, hM, _, _⟩ :=
    reclaimRound_spec (reachable_mergedInv hR) now
  constructor
  · rw [heq]
    rfl
  · intro idx2 hrun2 d b hmem hdue k hk
    rw [hrun] at hrun2
    obtain rfl := Option.some.inj hrun2
    have hsome := (hM d k).mp ⟨b, hmem, hk⟩
    unfold kdm at hsome
    cases hf : assocFind s.lookupMap k with
    | none =>
        rw [hf] at hsome
        exact Option.noConfusion hsome
    | some _ => rfl

theorem c6_eviction_assert_safe_witness :
    (assocFind (⟨[], [(100, [1])], [(1, ⟨7, 100⟩)], false⟩ :
        ExpireMap Nat Nat).lookupMap 1).isSome = true := by
  have hR : Reachable (⟨[], [(100, [1])], [(1, ⟨7, 100⟩)], false⟩ : ExpireMap Nat Nat) :=
    Reachable.reclaim (ExpireMap.initial.put 1 7 100 0) _ 0
      (Reachable.put ExpireMap.initial 1 7 100 0 Reachable.init) (by decide)
  exact (c6_eviction_assert_safe _ 200 hR).2 [(100, [1])] rfl 100 [1] (by decide)
    (by decide) 1 (by decide)

/-- **C7.** A single reclaim round processes buckets in ascending deadline
order: with `idx` the merged index, the round drops exactly the first
`n = min MAX_RECLAIM_ENTRIES (number of leading due buckets)` buckets —
`MAX_RECLAIM_ENTRIES = 10` — each dropped bucket is due (deadline `≤ now`),
if the round stopped before the cap then the next remaining bucket's deadline
is strictly in the future, keys of dropped buckets are removed from the entry
table, and every other bucket and every other entry is left unchanged. -/
theorem c7_reclaim_round_bound {K V : Type} [DecidableEq K] :
    ExpireMap.MAX_RECLAIM_ENTRIES = 10 ∧
    ∀ (s s1 : ExpireMap K V) (now : Nat), Reachable s →
      ExpireMap.reclaimRound s now = some s1 →
      ∀ idx, runLog s.sortedTimeouts s.appendTimeouts = some idx →
        s1.appendTimeouts = [] ∧
        s1.sortedTimeouts =
          idx.drop (min ExpireMap.MAX_RECLAIM_ENTRIES (dueCount idx now)) ∧
        min ExpireMap.MAX_RECLAIM_ENTRIES (dueCount idx now) ≤
          ExpireMap.MAX_RECLAIM_ENTRIES ∧
        (∀ p ∈ idx.take (min ExpireMap.MAX_RECLAIM_ENTRIES (dueCount idx now)),
          p.1 ≤ now) ∧
        (min ExpireMap.MAX_RECLAIM_ENTRIES (dueCount idx now) <
            ExpireMap.MAX_RECLAIM_ENTRIES →
          ∀ p, s1.sortedTimeouts.head? = some p → now < p.1) ∧
        (∀ x, x ∈ bucketKeys
            (idx.take (min ExpireMap.MAX_RECLAIM_ENTRIES (dueCount idx now))) →
          assocFind s1.lookupMap x = none) ∧
        (∀ x, x ∉ bucketKeys
            (idx.take (min ExpireMap.MAX_RECLAIM_ENTRIES (dueCount idx now))) →
          assocFind s1.lookupMap x = assocFind s.lookupMap x) := by
  refine ⟨rfl, ?_⟩
  intro s s1 now hR hstep idx2 hrun2
  obtain ⟨idx, m1, hrun, heq, hWF, hM, hnd1, hchar⟩ :=
    reclaimRound_spec (reachable_mergedInv hR) now
  rw [hrun] at hrun2
  obtain rfl := Option.some.inj hrun2
  rw [heq] at hstep
  obtain rfl := Option.some.inj hstep
  refine ⟨rfl, rfl, Nat.min_le_left _ _, ?_, ?_, ?_, ?_⟩
  · exact fun p hp => dueCount_take_le (Nat.min_le_right _ _) p hp
  · intro hlt p hp
    have hminle : min ExpireMap.MAX_RECLAIM_ENTRIES (dueCount idx now) =
        dueCount idx now := by
      rcases Nat.le_total ExpireMap.MAX_RECLAIM_ENTRIES (dueCount idx now) with h | h
      · rw [Nat.min_eq_left h] at hlt
        omega
      · exact Nat.min_eq_right h
    have hp2 : (idx.drop (min ExpireMap.MAX_RECLAIM_ENTRIES
        (dueCount idx now))).head? = some p := hp
    rw [hminle] at hp2
    exact dueCount_drop_head hp2
  · intro x hx
    show assocFind m1 x = none
    rw [hchar x, if_pos hx]
  · intro x hx
    show assocFind m1 x = assocFind s.lookupMap x
    rw [hchar x, if_neg hx]

theorem c7_reclaim_round_bound_witness :
    ExpireMap.MAX_RECLAIM_ENTRIES = 10 ∧
    assocFind (⟨[], [], [], false⟩ : ExpireMap Nat Nat).lookupMap 1 = none := by
  have hR : Reachable (⟨[], [(100, [1])], [(1, ⟨7, 100⟩)], false⟩ : ExpireMap Nat Nat) :=
    Reachable.reclaim (ExpireMap.initial.put 1 7 100 0) _ 0
      (Reachable.put ExpireMap.initial 1 7 100 0 Reachable.init) (by decide)
  refine ⟨(c7_reclaim_round_bound (K := Nat) (V := Nat)).1, ?_⟩
  exact ((c7_reclaim_round_bound (K := Nat) (V := Nat)).2
    ⟨[], [(100, [1])], [(1, ⟨7, 100⟩)], false⟩ ⟨[], [], [], false⟩ 200 hR (by decide)
    [(100, [1])] rfl).2.2.2.2.2.1 1 (by decide)

/-- **C3 counterexample.** The claim says a removal record whose key is not in
the bucket for its recorded deadline — *including when no such bucket exists* —
is treated as a fatal internal-consistency failure in debug builds.  In the
source, the no-bucket case falls into the generic `else` branch of the merge,
which fires no assert and instead silently *inserts* a fresh bucket containing
the key: on an empty index, merging the removal record `(key 0, deadline 5)`
succeeds and produces the bucket `(5, {0})`. -/
theorem c3_counterexample :
    applyRecord ([] : List (Nat × List Nat)) ⟨0, 5, true⟩ = some [(5, [0])] := by
  decide

/-- **C3 (amended).** When the merge processes a removal record:
(1) in every reachable state the whole merge succeeds without firing an
assert — in particular every removal record finds its key; moreover, whenever
the index carries exactly a key-to-deadline relation that maps the record's
key to the record's deadline (the reachable situation), the bucket for the
recorded deadline exists and contains the key, and the merge erases the key,
dropping the bucket if it becomes empty (2); a removal record whose deadline
bucket exists but lacks the key *is* fatal in debug builds (3); but a removal
record with *no* bucket for its recorded deadline is silently handled by
inserting a fresh bucket containing the key (4). -/
theorem c3_removal_merge_amended {K V : Type} [DecidableEq K] :
    (∀ s : ExpireMap K V, Reachable s →
      (ExpireMap.populateSortedTimeouts s).isSome = true) ∧
    (∀ (idx : List (Nat × List K)) (f : K → Option Nat) (k : K) (d : Nat),
      WFidx idx → Matches idx f → f k = some d →
      ∃ b, assocFind idx d = some b ∧ k ∈ b ∧
        applyRecord idx ⟨k, d, true⟩ =
          some (if (setErase b k).isEmpty then assocErase idx d
                else assocSet idx d (setErase b k))) ∧
    (∀ (idx : List (Nat × List K)) (b : List K) (k : K) (d : Nat),
      assocFind idx d = some b → k ∉ b →
      applyRecord idx ⟨k, d, true⟩ = none) ∧
    (∀ (idx : List (Nat × List K)) (k : K) (d : Nat),
      assocFind idx d = none →
      applyRecord idx ⟨k, d, true⟩ = some (smInsertNew idx d [k])) := by
  refine ⟨?_, ?_, ?_, ?_⟩
  · intro s hRs
    obtain ⟨hnd, idx, hrun, _, _⟩ := reachable_mergedInv hRs
    simp [ExpireMap.populateSortedTimeouts, hrun]
  · intro idx f k d hWF hM hk
    exact applyRecord_remove_eq hWF hM hk
  · intro idx b k d hfind hk
    simp [applyRecord, hfind, hk]
  · intro idx k d hfind
    simp [applyRecord, hfind]

theorem c3_removal_merge_amended_witness :
    (ExpireMap.populateSortedTimeouts (ExpireMap.initial : ExpireMap Nat Nat)).isSome
      = true ∧
    applyRecord ([(5, [1])] : List (Nat × List Nat)) ⟨0, 5, true⟩ = none ∧
    applyRecord ([(7, [1])] : List (Nat × List Nat)) ⟨0, 5, true⟩ =
      some (smInsertNew [(7, [1])] 5 [0]) :=
  ⟨(c3_removal_merge_amended (K := Nat) (V := Nat)).1 ExpireMap.initial Reachable.init,
   (c3_removal_merge_amended (K := Nat) (V := Nat)).2.2.1 [(5, [1])] [1] 0 5
      (by decide) (by decide),
   (c3_removal_merge_amended (K := Nat) (V := Nat)).2.2.2 [(7, [1])] 0 5 (by decide)⟩

/-- **C8.** Teardown stops the background reclaimer deterministically: from
any reachable state, after `cleanup` sets the shutdown flag (and notifies the
wait primitive), iterating the reclaimer loop — with each timed wait modelled
as elapsing to the awaited deadline, the un-notified worst case — reaches the
`stopped` outcome (the `return` of the reclaim loop, after which the `join`
completes) in finitely many iterations, regardless of the contents of the
entry table, pending log and deadline index at teardown time. -/
theorem c8_teardown_stops {K V : Type} [DecidableEq K] (s : ExpireMap K V)
    (now : Nat) (hR : Reachable s) :
    ∃ n, iterSteps n s.cleanup now = ReclaimOut.stopped :=
  shutdown_terminates_aux (stepMeasure s.cleanup now + 1) s.cleanup now
    (Nat.lt_succ_self _) (Reachable.cleanup s hR) rfl

theorem c8_teardown_stops_witness :
    ∃ n, iterSteps n (ExpireMap.initial.cleanup : ExpireMap Nat Nat) 0 =
      ReclaimOut.stopped :=
  c8_teardown_stops ExpireMap.initial 0 Reachable.init

/-- **C1.** Overwriting `put`: from any reachable state, after
`put (k, v1, t1)` at `now1` and `put (k, v2, t2)` at `now2` (monotone time,
before the first deadline `d1 = (now1 + t1) % 2 ^ 64` elapses), the pending
log is extended by exactly a removal record carrying the *old* deadline `d1`
followed by an insertion record carrying the *new* deadline
`d2 = (now2 + t2) % 2 ^ 64`, in that order; the entry table holds exactly one
entry for `k`, with value `v2` and deadline `d2`; `get k` at any time `t < d2`
returns `v2`; and a reclaim round at any `t < d2` — in particular after the
first deadline has passed — never evicts the entry: `get k` still returns
`v2` afterwards. -/
theorem c1_overwrite_semantics {K V : Type} [DecidableEq K] (s : ExpireMap K V)
    (k : K) (v1 v2 : V) (t1 t2 now1 now2 : Nat) (hR : Reachable s)
    (hmono : now1 ≤ now2) (hbefore : now2 < (now1 + t1) % U64) :
    ((s.put k v1 t1 now1).put k v2 t2 now2).appendTimeouts =
      (s.put k v1 t1 now1).appendTimeouts ++
        [⟨k, (now1 + t1) % U64, true⟩, ⟨k, (now2 + t2) % U64, false⟩] ∧
    assocFind ((s.put k v1 t1 now1).put k v2 t2 now2).lookupMap k =
      some ⟨v2, (now2 + t2) % U64⟩ ∧
    (((s.put k v1 t1 now1).put k v2 t2 now2).lookupMap.filter
        (fun p => decide (p.1 = k))).length = 1 ∧
    (∀ t, t < (now2 + t2) % U64 →
      ((s.put k v1 t1 now1).put k v2 t2 now2).get k t = some v2) ∧
    (∀ t s3, t < (now2 + t2) % U64 →
      ExpireMap.reclaimRound ((s.put k v1 t1 now1).put k v2 t2 now2) t = some s3 →
      s3.get k t = some v2) := by
  obtain ⟨hnd, _, _, _, _⟩ := reachable_mergedInv hR
  have hnd1 : lookupNodup (s.put k v1 t1 now1).lookupMap :=
    (mergedInv_put (reachable_mergedInv hR) k v1 t1 now1).1
  have hfind1 : assocFind (s.put k v1 t1 now1).lookupMap k =
      some ⟨v1, (now1 + t1) % U64⟩ := by
    cases hfind : assocFind s.lookupMap k with
    | some md =>
        rw [put_present v1 t1 now1 hnd hfind]
        simp [assocFind]
    | none =>
        rw [put_absent v1 t1 now1 hfind]
        simp [assocFind]
  have hs2 := put_present (s := s.put k v1 t1 now1) v2 t2 now2 hnd1 hfind1
  have hR2 : Reachable ((s.put k v1 t1 now1).put k v2 t2 now2) :=
    Reachable.put _ k v2 t2 now2 (Reachable.put s k v1 t1 now1 hR)
  have hfind2 : assocFind ((s.put k v1 t1 now1).put k v2 t2 now2).lookupMap k =
      some ⟨v2, (now2 + t2) % U64⟩ := by
    rw [hs2]
    simp [assocFind]
  refine ⟨?_, hfind2, ?_, ?_, ?_⟩
  · rw [hs2]
  · rw [hs2]
    show (((k, (⟨v2, (now2 + t2) % U64⟩ : MapData V)) ::
        assocErase (s.put k v1 t1 now1).lookupMap k).filter
        (fun p => decide (p.1 = k))).length = 1
    rw [List.filter_cons]
    simp only [decide_eq_true_eq, if_pos rfl]
    rw [filter_key_eq_nil (assocFind_assocErase_self hnd1)]
    rfl
  · intro t ht
    have hn : ¬ ((now2 + t2) % U64 ≤ t) := Nat.not_le.mpr ht
    simp [ExpireMap.get, hfind2, hn]
  · intro t s3 ht hstep
    have hkeep := reclaimRound_preserves_unexpired hR2 hfind2 ht hstep
    have hn : ¬ ((now2 + t2) % U64 ≤ t) := Nat.not_le.mpr ht
    simp [ExpireMap.get, hkeep, hn]

theorem c1_overwrite_semantics_witness :
    ((ExpireMap.initial.put 1 10 1000 0).put 1 20 500 100 :
        ExpireMap Nat Nat).appendTimeouts =
      (ExpireMap.initial.put 1 10 1000 0 : ExpireMap Nat Nat).appendTimeouts ++
        [⟨1, (0 + 1000) % U64, true⟩, ⟨1, (100 + 500) % U64, false⟩] ∧
    assocFind ((ExpireMap.initial.put 1 10 1000 0).put 1 20 500 100 :
        ExpireMap Nat Nat).lookupMap 1 = some ⟨20, (100 + 500) % U64⟩ ∧
    ((ExpireMap.initial.put 1 10 1000 0).put 1 20 500 100 :
        ExpireMap Nat Nat).get 1 599 = some 20 ∧
    (⟨[], [(600, [1])], [(1, ⟨20, 600⟩)], false⟩ : ExpireMap Nat Nat).get 1 250 =
      some 20 := by
  have h := c1_overwrite_semantics (ExpireMap.initial : ExpireMap Nat Nat) 1 10 20
    1000 500 0 100 Reachable.init (by decide) (by decide)
  exact ⟨h.1, h.2.1, h.2.2.2.1 599 (by decide),
    h.2.2.2.2 250 ⟨[], [(600, [1])], [(1, ⟨20, 600⟩)], false⟩ (by decide) (by decide)⟩
